import Mathlib

/-!
Verification of the canonical request encoding and authentication envelope
of the Polymarket_Data_Bridge frontend (src/frontend/app/page.tsx).

The encoding pipeline of the source is embedded shallowly:
strings become `List Char`, byte arrays become `List Nat` (each entry a
byte value below 256), JavaScript exceptions become `Except EncodeErr`,
and JavaScript `BigInt` values become `Int`.
-/

namespace Launchpad

/-! ## Generic decimal / base-b digit library (little-endian digit lists) -/

/-- Fuel-driven base-b digit extraction, least significant digit first. -/
def toDigitsGo (b : Nat) : Nat → Nat → List Nat
  | 0, _ => []
  | fuel + 1, n => if n = 0 then [] else n % b :: toDigitsGo b fuel (n / b)

/-- Digits of `n` in base `b`, least significant first, empty for 0. -/
def toDigitsLE (b n : Nat) : List Nat := toDigitsGo b n n

/-- Value of a little-endian digit list in base `b`. -/
def ofDigitsLE (b : Nat) : List Nat → Nat
  | [] => 0
  | d :: ds => d + b * ofDigitsLE b ds

theorem toDigitsGo_zero (b : Nat) : ∀ f, toDigitsGo b f 0 = [] := by
  intro f
  cases f with
  | zero => rfl
  | succ f => simp [toDigitsGo]

theorem toDigitsGo_fuel (b : Nat) (hb : 2 ≤ b) :
    ∀ n f₁ f₂, n ≤ f₁ → n ≤ f₂ → toDigitsGo b f₁ n = toDigitsGo b f₂ n := by
  intro n
  induction n using Nat.strong_induction_on with
  | _ n ih =>
    intro f₁ f₂ h₁ h₂
    cases n with
    | zero => rw [toDigitsGo_zero, toDigitsGo_zero]
    | succ m =>
      cases f₁ with
      | zero => omega
      | succ g₁ =>
        cases f₂ with
        | zero => omega
        | succ g₂ =>
          simp only [toDigitsGo, if_neg (Nat.succ_ne_zero m)]
          have hdiv : (m + 1) / b < m + 1 := Nat.div_lt_self (Nat.succ_pos m) (by omega)
          have e₁ : toDigitsGo b g₁ ((m + 1) / b) = toDigitsGo b ((m + 1) / b) ((m + 1) / b) :=
            ih _ hdiv _ _ (by omega) (Nat.le_refl _)
          have e₂ : toDigitsGo b g₂ ((m + 1) / b) = toDigitsGo b ((m + 1) / b) ((m + 1) / b) :=
            ih _ hdiv _ _ (by omega) (Nat.le_refl _)
          rw [e₁, e₂]

theorem toDigitsLE_eq (b : Nat) (hb : 2 ≤ b) (n : Nat) :
    toDigitsLE b n = if n = 0 then [] else n % b :: toDigitsLE b (n / b) := by
  cases n with
  | zero => rfl
  | succ m =>
    simp only [toDigitsLE, toDigitsGo, if_neg (Nat.succ_ne_zero m)]
    have hdiv : (m + 1) / b < m + 1 := Nat.div_lt_self (Nat.succ_pos m) (by omega)
    rw [toDigitsGo_fuel b hb ((m + 1) / b) m ((m + 1) / b) (by omega) (Nat.le_refl _)]

theorem toDigitsLE_zero (b : Nat) : toDigitsLE b 0 = [] := rfl

theorem toDigitsLE_eq_nil_iff (b : Nat) (hb : 2 ≤ b) (n : Nat) :
    toDigitsLE b n = [] ↔ n = 0 := by
  rw [toDigitsLE_eq b hb]
  by_cases h : n = 0 <;> simp [h]

theorem ofDigitsLE_toDigitsLE (b : Nat) (hb : 2 ≤ b) :
    ∀ n, ofDigitsLE b (toDigitsLE b n) = n := by
  intro n
  induction n using Nat.strong_induction_on with
  | _ n ih =>
    rw [toDigitsLE_eq b hb]
    by_cases h : n = 0
    · simp [h, ofDigitsLE]
    · have hdiv : n / b < n := Nat.div_lt_self (Nat.pos_of_ne_zero h) (by omega)
      simp only [if_neg h, ofDigitsLE, ih _ hdiv]
      exact Nat.mod_add_div n b

theorem toDigitsLE_lt_base (b : Nat) (hb : 2 ≤ b) :
    ∀ n d, d ∈ toDigitsLE b n → d < b := by
  intro n
  induction n using Nat.strong_induction_on with
  | _ n ih =>
    intro d hd
    rw [toDigitsLE_eq b hb] at hd
    by_cases h : n = 0
    · simp [h] at hd
    · simp only [if_neg h, List.mem_cons] at hd
      rcases hd with h1 | h2
      · exact h1 ▸ Nat.mod_lt n (by omega)
      · exact ih (n / b) (Nat.div_lt_self (Nat.pos_of_ne_zero h) (by omega)) d h2

theorem toDigitsLE_getLast?_ne_zero (b : Nat) (hb : 2 ≤ b) :
    ∀ n d, (toDigitsLE b n).getLast? = some d → d ≠ 0 := by
  intro n
  induction n using Nat.strong_induction_on with
  | _ n ih =>
    intro d hd
    by_cases h0 : n = 0
    · rw [h0, toDigitsLE_zero] at hd
      simp at hd
    · have heq := toDigitsLE_eq b hb n
      rw [if_neg h0] at heq
      rw [heq] at hd
      by_cases htail : toDigitsLE b (n / b) = []
      · have hnb : n / b = 0 := (toDigitsLE_eq_nil_iff b hb _).mp htail
        have hlt : n < b := by
          by_contra h'
          push_neg at h'
          have := Nat.div_le_div_right (c := b) h'
          rw [Nat.div_self (by omega)] at this
          omega
        rw [htail] at hd
        simp only [List.getLast?_singleton, Option.some_inj] at hd
        rw [← hd, Nat.mod_eq_of_lt hlt]
        exact h0
      · have hdiv : n / b < n := Nat.div_lt_self (Nat.pos_of_ne_zero h0) (by omega)
        rcases List.exists_cons_of_ne_nil htail with ⟨y, ys, hys⟩
        rw [hys, List.getLast?_cons_cons] at hd
        exact ih (n / b) hdiv d (by rw [hys]; exact hd)

theorem toDigitsLE_length_le (b : Nat) (hb : 2 ≤ b) :
    ∀ k n, n < b ^ k → (toDigitsLE b n).length ≤ k := by
  intro k
  induction k with
  | zero =>
    intro n hn
    have : n = 0 := by simpa using hn
    simp [this, toDigitsLE_zero]
  | succ k ih =>
    intro n hn
    rw [toDigitsLE_eq b hb]
    by_cases h : n = 0
    · simp [h]
    · simp only [if_neg h, List.length_cons]
      have : n / b < b ^ k := by
        rw [Nat.div_lt_iff_lt_mul (by omega)]
        calc n < b ^ (k + 1) := hn
          _ = b ^ k * b := by ring
      have := ih _ this
      omega

theorem ofDigitsLE_lt (b : Nat) (hb : 2 ≤ b) :
    ∀ M : List Nat, (∀ d ∈ M, d < b) → ofDigitsLE b M < b ^ M.length := by
  intro M
  induction M with
  | nil => simp [ofDigitsLE]
  | cons d ds ih =>
    intro hM
    have hd : d < b := hM d (List.mem_cons_self d ds)
    have hv : ofDigitsLE b ds < b ^ ds.length := ih fun x hx => hM x (List.mem_cons_of_mem d hx)
    simp only [ofDigitsLE, List.length_cons]
    calc d + b * ofDigitsLE b ds < b + b * ofDigitsLE b ds := by omega
      _ = b * (ofDigitsLE b ds + 1) := by ring
      _ ≤ b * b ^ ds.length := Nat.mul_le_mul_left b hv
      _ = b ^ (ds.length + 1) := by ring

theorem ofDigitsLE_append (b : Nat) :
    ∀ m n : List Nat, ofDigitsLE b (m ++ n) = ofDigitsLE b m + b ^ m.length * ofDigitsLE b n := by
  intro m n
  induction m with
  | nil => simp [ofDigitsLE]
  | cons d ds ih =>
    simp only [List.cons_append, ofDigitsLE, List.length_cons]
    rw [show ds.append n = ds ++ n from rfl, ih]
    ring

theorem ofDigitsLE_eq_zero (b : Nat) (hb : 2 ≤ b) :
    ∀ M : List Nat, ofDigitsLE b M = 0 → ∀ d ∈ M, d = 0 := by
  intro M
  induction M with
  | nil => simp
  | cons d ds ih =>
    intro h x hx
    simp only [ofDigitsLE] at h
    have hd : d = 0 := by omega
    have hds : ofDigitsLE b ds = 0 := by
      have hbu : b * ofDigitsLE b ds = 0 := by omega
      rcases Nat.mul_eq_zero.mp hbu with h' | h'
      · omega
      · exact h'
    rcases List.mem_cons.mp hx with h1 | h2
    · exact h1.trans hd
    · exact ih hds x h2

/-- Fixed-width uniqueness: re-rendering the value of a digit list and
right-padding with zeros (in little-endian order) recovers the list. -/
theorem toDigitsLE_ofDigitsLE_pad (b : Nat) (hb : 2 ≤ b) :
    ∀ M : List Nat, (∀ d ∈ M, d < b) →
      toDigitsLE b (ofDigitsLE b M) ++
        List.replicate (M.length - (toDigitsLE b (ofDigitsLE b M)).length) 0 = M := by
  intro M
  induction M with
  | nil => simp [ofDigitsLE, toDigitsLE_zero]
  | cons d ds ih =>
    intro hM
    have hd : d < b := hM d (List.mem_cons_self d ds)
    have hds : ∀ x ∈ ds, x < b := fun x hx => hM x (List.mem_cons_of_mem d hx)
    have ihds := ih hds
    have hcons : ofDigitsLE b (d :: ds) = d + b * ofDigitsLE b ds := rfl
    by_cases hv : d + b * ofDigitsLE b ds = 0
    · have hd0 : d = 0 := by omega
      have hu0 : ofDigitsLE b ds = 0 := by
        have hbu : b * ofDigitsLE b ds = 0 := by omega
        rcases Nat.mul_eq_zero.mp hbu with h | h
        · omega
        · exact h
      have hds0 : ds = List.replicate ds.length 0 := by
        rw [hu0] at ihds
        simpa [toDigitsLE_zero] using ihds.symm
      rw [hcons, hv, toDigitsLE_zero, hd0]
      simp only [List.nil_append, List.length_cons, Nat.sub_zero, List.length_nil]
      rw [List.replicate_succ, ← hds0]
    · have hstep : toDigitsLE b (d + b * ofDigitsLE b ds) = d :: toDigitsLE b (ofDigitsLE b ds) := by
        rw [toDigitsLE_eq b hb]
        have hmod : (d + b * ofDigitsLE b ds) % b = d := by
          rw [Nat.add_mul_mod_self_left, Nat.mod_eq_of_lt hd]
        have hdiv : (d + b * ofDigitsLE b ds) / b = ofDigitsLE b ds := by
          rw [Nat.add_mul_div_left d _ (by omega), Nat.div_eq_of_lt hd]
          omega
        rw [if_neg hv, hmod, hdiv]
      rw [hcons, hstep]
      simp only [List.length_cons, List.cons_append]
      have harith : ds.length + 1 - ((toDigitsLE b (ofDigitsLE b ds)).length + 1)
          = ds.length - (toDigitsLE b (ofDigitsLE b ds)).length := by omega
      rw [harith]
      exact congrArg (d :: ·) ihds

/-! ## Characters: decimal and hexadecimal digits, rendering -/

/-- The character for a decimal digit (`0 ≤ d ≤ 9`). -/
def digitChar (d : Nat) : Char := Char.ofNat (48 + d)

/-- The numeric value of a decimal digit character. -/
def charToDigit (c : Char) : Nat := c.toNat - 48

/-- Is `c` one of the ASCII characters 0-9? -/
def isDigitChar (c : Char) : Bool := 48 ≤ c.toNat && c.toNat ≤ 57

/-- Is `c` an ASCII hexadecimal digit (0-9, a-f, A-F)? -/
def isHexDigitChar (c : Char) : Bool :=
  isDigitChar c || (97 ≤ c.toNat && c.toNat ≤ 102) || (65 ≤ c.toNat && c.toNat ≤ 70)

/-- The numeric value of a hexadecimal digit character (either case). -/
def hexCharToDigit (c : Char) : Nat :=
  if 97 ≤ c.toNat then c.toNat - 87 else if 65 ≤ c.toNat then c.toNat - 55 else c.toNat - 48

/-- The lowercase character for a hexadecimal digit (`0 ≤ d ≤ 15`). -/
def hexDigitChar (d : Nat) : Char := Char.ofNat (if d < 10 then 48 + d else 87 + d)

/-- Value of a most-significant-first decimal digit string. -/
def valMSB (l : List Char) : Nat := ofDigitsLE 10 ((l.map charToDigit).reverse)

/-- Value of a most-significant-first hexadecimal digit string. -/
def hexValMSB (l : List Char) : Nat := ofDigitsLE 16 ((l.map hexCharToDigit).reverse)

/-- Decimal rendering of `n`, most significant digit first, empty for 0. -/
def renderCore (n : Nat) : List Char := ((toDigitsLE 10 n).reverse).map digitChar

/-- Decimal rendering of `n`, most significant digit first, never empty. -/
def renderNat (n : Nat) : List Char := if n = 0 then ['0'] else renderCore n

/-- Hexadecimal (lowercase) rendering of `n`, never empty; models the result
of the JavaScript expression `n.toString(16)` for a natural number `n`. -/
def renderHexNat (n : Nat) : List Char :=
  if n = 0 then ['0'] else ((toDigitsLE 16 n).reverse).map hexDigitChar

/-- Left-pad a character list with `ch` up to length `k` (identity when the
list is already at least that long); models JavaScript `padStart`. -/
def padLeftTo (k : Nat) (ch : Char) (l : List Char) : List Char :=
  List.replicate (k - l.length) ch ++ l

/-- Drop all trailing `'0'` characters. -/
def stripTrailingZeros (l : List Char) : List Char :=
  (l.reverse.dropWhile (fun c => c = '0')).reverse

/-! ## Models of JavaScript string primitives -/

/-- The whitespace characters recognised by JavaScript `trim` /
`StringToBigInt` that can appear in the inputs this development models. -/
def jsWhitespace (c : Char) : Bool :=
  c.toNat = 9 || c.toNat = 10 || c.toNat = 11 || c.toNat = 12 || c.toNat = 13 ||
  c.toNat = 32 || c.toNat = 160 || c.toNat = 65279 || c.toNat = 8232 || c.toNat = 8233

/-- JavaScript `String.prototype.trim`: remove whitespace at both ends. -/
def jsTrim (l : List Char) : List Char :=
  ((l.dropWhile jsWhitespace).reverse.dropWhile jsWhitespace).reverse

/-- JavaScript `String.prototype.split` with a single-character separator:
splits on every occurrence, keeping empty segments (so the result is never
empty, and the empty string splits to one empty segment). -/
def jsSplit (sep : Char) : List Char → List (List Char)
  | [] => [[]]
  | c :: rest =>
    if c = sep then [] :: jsSplit sep rest
    else
      match jsSplit sep rest with
      | s :: ss => (c :: s) :: ss
      | [] => [[c]]

/-- Strip one leading `'+'`; models `replace` with an anchored regex. -/
def stripLeadingPlus (l : List Char) : List Char :=
  if l.head? = some '+' then l.tail else l

/-- Strip one leading `"0x"` (lowercase only); models `replace` with the
regex used on already-lowercased owner and address strings. -/
def strip0x (l : List Char) : List Char :=
  if l.head? = some '0' ∧ l.tail.head? = some 'x' then l.drop 2 else l

/-- Strip one leading `"0x"` or `"0X"`; models `replace` with the
case-insensitive regex of `hexToBytes`. -/
def strip0xCI (l : List Char) : List Char :=
  if l.head? = some '0' ∧ (l.tail.head? = some 'x' ∨ l.tail.head? = some 'X') then l.drop 2
  else l

/-- Group a character list into consecutive pairs (any trailing odd
character is dropped; callers only use it on even-length lists). -/
def chunkPairs : List Char → List (Char × Char)
  | a :: b :: rest => (a, b) :: chunkPairs rest
  | _ => []

/-- The hexadecimal-digit body of JavaScript `parseInt(s, 16)` after sign
processing: strip an optional `0x`/`0X`, then read the longest prefix of
hexadecimal digits; no digits yields `none` (NaN). -/
def parseIntHexBody (r : List Char) : Option Nat :=
  let r' :=
    if r.head? = some '0' ∧ (r.tail.head? = some 'x' ∨ r.tail.head? = some 'X') then r.drop 2
    else r
  let ds := r'.takeWhile isHexDigitChar
  if ds = [] then none else some (hexValMSB ds)

/-- JavaScript `Number.parseInt(s, 16)`: skip leading whitespace, read an
optional sign, then the hexadecimal body; `none` models NaN. -/
def jsParseIntHex (s : List Char) : Option Int :=
  let t := s.dropWhile jsWhitespace
  if t.head? = some '-' then (parseIntHexBody t.tail).map (fun v => -(v : Int))
  else if t.head? = some '+' then (parseIntHexBody t.tail).map (fun v => (v : Int))
  else (parseIntHexBody t).map (fun v => (v : Int))

/-- Storing a JavaScript number into a `Uint8Array` slot: NaN becomes 0 and
integers are reduced modulo 256 (ECMAScript ToUint8). -/
def jsToUint8 : Option Int → Nat
  | none => 0
  | some v => (v.emod 256).toNat

/-- JavaScript `BigInt(string)` restricted to the shapes reachable from
this program: surrounding whitespace, an optional sign, then decimal
digits (a non-decimal literal such as `0x…` cannot occur here because the
callers strip all leading zeros first); `none` models a thrown
SyntaxError.  The empty (or all-whitespace) string evaluates to 0. -/
def jsBigIntOfString (l : List Char) : Option Int :=
  let t := jsTrim l
  if t = [] then some 0
  else if t.head? = some '-' then
    if t.tail ≠ [] ∧ t.tail.all isDigitChar then some (-(valMSB t.tail : Int)) else none
  else if t.head? = some '+' then
    if t.tail ≠ [] ∧ t.tail.all isDigitChar then some ((valMSB t.tail : Int)) else none
  else if t.all isDigitChar then some ((valMSB t : Int)) else none

/-- UTF-8 encoding of a single character (standard 1-4 byte form). -/
def utf8EncodeChar (c : Char) : List Nat :=
  let n := c.toNat
  if n < 128 then [n]
  else if n < 2048 then [192 + n / 64, 128 + n % 64]
  else if n < 65536 then [224 + n / 4096, 128 + n / 64 % 64, 128 + n % 64]
  else [240 + n / 262144, 128 + n / 4096 % 64, 128 + n / 64 % 64, 128 + n % 64]

/-- UTF-8 byte sequence of a string; models `TextEncoder.encode`. -/
def utf8Bytes (l : List Char) : List Nat := l.flatMap utf8EncodeChar

/-! ## Embedding of the encoders of src/frontend/app/page.tsx -/

/-- The validation and format failures the encoders can raise (`throw new
Error(...)` sites in the source, plus the `BigInt` SyntaxError). -/
inductive EncodeErr where
  | invalidHexLength
  | negativeAmount
  | tooManyDecimals
  | invalidAmountFormat
  | unsupportedOwnerLength
  | invalidSignatureLength
  | invalidAddressLength
  deriving DecidableEq, Repr

instance instDecEqExcept {ε α : Type} [DecidableEq ε] [DecidableEq α] :
    DecidableEq (Except ε α)
  | .ok a, .ok b =>
    if h : a = b then isTrue (by rw [h]) else isFalse (by intro he; cases he; exact h rfl)
  | .ok _, .error _ => isFalse (by intro h; cases h)
  | .error _, .ok _ => isFalse (by intro h; cases h)
  | .error a, .error b =>
    if h : a = b then isTrue (by rw [h]) else isFalse (by intro he; cases he; exact h rfl)

/-- `bytesToHex`: each byte printed via `toString(16)` and left-padded with
`'0'` to two characters, all concatenated. -/
def bytesToHex (bytes : List Nat) : List Char :=
  bytes.flatMap (fun value => padLeftTo 2 '0' (renderHexNat value))

/-- `hexToBytes`: strip one case-insensitive `0x`, reject odd length, then
convert each two-character slice with `Number.parseInt(_, 16)` stored into
a `Uint8Array` slot. -/
def hexToBytes (hex : List Char) : Except EncodeErr (List Nat) :=
  let normalized := strip0xCI hex
  if normalized.length % 2 ≠ 0 then .error .invalidHexLength
  else .ok ((chunkPairs normalized).map (fun p => jsToUint8 (jsParseIntHex [p.1, p.2])))

/-- `encodeU32LE`: the four little-endian bytes of a 32-bit value. -/
def encodeU32LE (value : Nat) : List Nat :=
  [value % 256, value / 256 % 256, value / 65536 % 256, value / 16777216 % 256]

/-- The byte-extraction loop of `encodeU128LE`: sixteen rounds of
`cursor & 0xffn` followed by `cursor >>= 8n` (BigInt two's-complement
semantics: euclidean remainder and floor division by 256). -/
def u128LoopBytes : Nat → Int → List Nat
  | 0, _ => []
  | k + 1, cursor => (cursor.emod 256).toNat :: u128LoopBytes k (cursor.ediv 256)

/-- `encodeU128LE`: sixteen little-endian bytes of a BigInt value. -/
def encodeU128LE (value : Int) : List Nat := u128LoopBytes 16 value

/-- `encodeString`: a `u32` little-endian byte-length prefix followed by the
UTF-8 bytes of the string. -/
def encodeString (value : List Char) : List Nat :=
  encodeU32LE (utf8Bytes value).length ++ utf8Bytes value

/-- The body of `parseAmountToU128` after its first normalisation step
(trim and underscore removal): accept empty as zero, reject a leading
minus, strip one leading plus, split on `'.'` keeping the first two
segments, default the integer part to `"0"`, reject more than 18
fractional digits, right-pad the fraction to 18 digits, strip leading
zeros (collapsing to `"0"`), and evaluate through `BigInt`. -/
def parseRawAmount (raw : List Char) : Except EncodeErr Int :=
  if raw = [] then .ok 0
  else if raw.head? = some '-' then .error .negativeAmount
  else
    let segs := jsSplit '.' (stripLeadingPlus raw)
    let integerPartRaw := segs.headD []
    let fractionalRaw := (segs.drop 1).headD []
    let integerPart := if integerPartRaw = [] then ['0'] else integerPartRaw
    if 18 < fractionalRaw.length then .error .tooManyDecimals
    else
      let fractionalPart := fractionalRaw ++ List.replicate (18 - fractionalRaw.length) '0'
      let digits0 := (integerPart ++ fractionalPart).dropWhile (fun c => c = '0')
      let digits := if digits0 = [] then ['0'] else digits0
      match jsBigIntOfString digits with
      | some v => .ok v
      | none => .error .invalidAmountFormat

/-- `parseAmountToU128`: trim, drop underscores, then the raw parse. -/
def parseAmountToU128 (input : List Char) : Except EncodeErr Int :=
  parseRawAmount ((jsTrim input).filter (fun c => c ≠ '_'))

/-- `encodeAmount`: the 128-bit little-endian encoding of the parsed amount. -/
def encodeAmount (input : List Char) : Except EncodeErr (List Nat) :=
  (parseAmountToU128 input).map encodeU128LE

/-- The owner normalisation of `encodeAccountOwner`: trim, lowercase, strip
one leading `0x`. -/
def ownerNormalized (owner : List Char) : List Char :=
  strip0x ((jsTrim owner).map Char.toLower)

/-- `encodeAccountOwner`: tag 2 plus raw bytes for a 40-character
normalised hex string, tag 1 plus raw bytes for a 64-character one, an
error otherwise. -/
def encodeAccountOwner (owner : List Char) : Except EncodeErr (List Nat) :=
  let normalized := ownerNormalized owner
  if normalized.length = 40 then
    (hexToBytes normalized).map (fun bytes => encodeU32LE 2 ++ bytes)
  else if normalized.length = 64 then
    (hexToBytes normalized).map (fun bytes => encodeU32LE 1 ++ bytes)
  else .error .unsupportedOwnerLength

/-- `encodeTokenMetadata`: length-prefixed name, length-prefixed symbol,
then one byte holding `decimals` as stored into a `Uint8Array`. -/
def encodeTokenMetadata (name symbol : List Char) (decimals : Int) : List Nat :=
  encodeString name ++ encodeString symbol ++ [jsToUint8 (some decimals)]

/-- `encodeCreateTokenRequest`: owner encoding, then metadata encoding,
then amount encoding, concatenated (failures propagate in source order:
owner first, then amount). -/
def encodeCreateTokenRequest (owner name symbol : List Char) (decimals : Int)
    (supply : List Char) : Except EncodeErr (List Nat) :=
  match encodeAccountOwner owner with
  | .error e => .error e
  | .ok ownerBytes =>
    match encodeAmount supply with
    | .error e => .error e
    | .ok amountBytes =>
      .ok (ownerBytes ++ encodeTokenMetadata name symbol decimals ++ amountBytes)

/-- The address normalisation of `encodeEvmAccountSignature`: trim,
lowercase, strip one leading `0x`. -/
def addressNormalized (address : List Char) : List Char :=
  strip0x ((jsTrim address).map Char.toLower)

/-- `encodeEvmAccountSignature`: decode the signature hex, require exactly
65 bytes, decode the normalised address hex, require exactly 20 bytes, and
emit tag 2 followed by the signature and address bytes. -/
def encodeEvmAccountSignature (signatureHex address : List Char) :
    Except EncodeErr (List Nat) :=
  match hexToBytes signatureHex with
  | .error e => .error e
  | .ok sigBytes =>
    if sigBytes.length ≠ 65 then .error .invalidSignatureLength
    else
      match hexToBytes (addressNormalized address) with
      | .error e => .error e
      | .ok addressBytes =>
        if addressBytes.length ≠ 20 then .error .invalidAddressLength
        else .ok (encodeU32LE 2 ++ sigBytes ++ addressBytes)

/-- The domain constant `CREATE_TOKEN_TYPE` of the source. -/
def CREATE_TOKEN_TYPE : List Char := "CreateTokenRequest".data

/-- The byte string submitted to Keccak-256 in `signWithMetaMask`: the
UTF-8 bytes of the domain string followed by the payload bytes. -/
def createTokenSigningPreimage (payloadBytes : List Nat) : List Nat :=
  utf8Bytes (CREATE_TOKEN_TYPE ++ "::".data) ++ payloadBytes

/-- The message `signWithMetaMask` presents to the wallet: `"0x"` followed
by the hex rendering of the digest.  The 256-bit hash itself is the
external `keccak_256` library call, kept abstract as a parameter. -/
def signWithMetaMaskMessage (keccak : List Nat → List Nat)
    (payloadBytes : List Nat) : List Char :=
  '0' :: 'x' :: bytesToHex (keccak (createTokenSigningPreimage payloadBytes))

/-! ## Reference definitions written from the specification -/

/-- Modelled from the spec: the amount decode direction of section 4.2,
which the system itself does not implement (encode-only) but the spec
defines for testability.  Treat the unscaled integer as a decimal string,
left-pad to at least 19 digits, insert a decimal point 18 digits from the
end, and strip trailing zeros and a trailing decimal point. -/
def decodeAmount (n : Nat) : List Char :=
  let padded := padLeftTo 19 '0' (renderNat n)
  let ip := padded.take (padded.length - 18)
  let fp := padded.drop (padded.length - 18)
  let fpStripped := stripTrailingZeros fp
  if fpStripped = [] then ip else ip ++ '.' :: fpStripped

/-- Modelled from the spec: the normalized form of a decimal amount string
(the `normalizedAmount` of the round-trip law of section 8): the integer
part with leading zeros stripped (collapsing to `"0"`), then the
fractional part with trailing zeros stripped, the point omitted when the
stripped fraction is empty. -/
def normalizedAmount (s : List Char) : List Char :=
  let segs := jsSplit '.' s
  let integerPart := segs.headD []
  let fracPart := (segs.drop 1).headD []
  let ip0 := integerPart.dropWhile (fun c => c = '0')
  let ip := if ip0 = [] then ['0'] else ip0
  let fp := stripTrailingZeros fracPart
  if fp = [] then ip else ip ++ '.' :: fp

/-- The mathematical value of a two-hex-digit pair. -/
def hexPairVal (a b : Char) : Nat := 16 * hexCharToDigit a + hexCharToDigit b

/-- Plain positional hex decoding of an even-length string of genuine
hexadecimal digits, byte by byte. -/
def hexPairsDecode (l : List Char) : List Nat :=
  (chunkPairs l).map (fun p => hexPairVal p.1 p.2)

/-- The canonical two-character lowercase hex rendering of a byte. -/
def lowerHexOfByte (b : Nat) : List Char := [hexDigitChar (b / 16), hexDigitChar (b % 16)]

/-- The canonical lowercase hex rendering of a byte string. -/
def lowerHexOfBytes (bytes : List Nat) : List Char := bytes.flatMap lowerHexOfByte

/-- A decimal amount string as quantified over by the round-trip law:
digits and at most one decimal point. -/
def DecimalAmountString (s : List Char) : Prop :=
  (∀ c ∈ s, c = '.' ∨ isDigitChar c) ∧ s.count '.' ≤ 1

instance (s : List Char) : Decidable (DecimalAmountString s) := by
  unfold DecimalAmountString
  infer_instance

/-! ## Character facts -/

theorem isDigitChar_bounds {c : Char} (h : isDigitChar c = true) :
    48 ≤ c.toNat ∧ c.toNat ≤ 57 := by
  simpa [isDigitChar, Bool.and_eq_true, decide_eq_true_eq] using h

theorem digitChar_charToDigit {c : Char} (h : isDigitChar c = true) :
    digitChar (charToDigit c) = c := by
  obtain ⟨h1, h2⟩ := isDigitChar_bounds h
  unfold digitChar charToDigit
  have : 48 + (c.toNat - 48) = c.toNat := by omega
  rw [this, Char.ofNat_toNat]

theorem charToDigit_digitChar {d : Nat} (h : d < 10) : charToDigit (digitChar d) = d := by
  interval_cases d <;> rfl

theorem charToDigit_lt {c : Char} (h : isDigitChar c = true) : charToDigit c < 10 := by
  obtain ⟨h1, h2⟩ := isDigitChar_bounds h
  unfold charToDigit
  omega

theorem isDigitChar_digitChar {d : Nat} (h : d < 10) : isDigitChar (digitChar d) = true := by
  interval_cases d <;> decide

theorem digitChar_eq_zero_iff {d : Nat} (h : d < 10) : digitChar d = '0' ↔ d = 0 := by
  constructor
  · intro he
    have := charToDigit_digitChar h
    rw [he] at this
    simpa [charToDigit] using this.symm
  · intro he
    rw [he]
    rfl

theorem isDigitChar_not_ws {c : Char} (h : isDigitChar c = true) : jsWhitespace c = false := by
  obtain ⟨h1, h2⟩ := isDigitChar_bounds h
  simp only [jsWhitespace, Bool.or_eq_false_iff, decide_eq_false_iff_not]
  omega

theorem isDigitChar_ne {c : Char} (h : isDigitChar c = true) :
    c ≠ '_' ∧ c ≠ '-' ∧ c ≠ '+' ∧ c ≠ '.' := by
  refine ⟨?_, ?_, ?_, ?_⟩ <;> rintro rfl <;> exact absurd h (by decide)

theorem dot_not_ws : jsWhitespace '.' = false := by decide

theorem zeroChar_isDigit : isDigitChar '0' = true := by decide

/-! ## List helper lemmas -/

theorem dropWhile_eq_self {α : Type} (p : α → Bool) (l : List α)
    (h : ∀ c ∈ l, p c = false) : l.dropWhile p = l := by
  cases l with
  | nil => rfl
  | cons a as =>
    rw [List.dropWhile_cons, h a (List.mem_cons_self a as)]
    simp

theorem dropWhile_append_cons {α : Type} (p : α → Bool) (x : α) (l₁ l₂ : List α)
    (hx : p x = false) :
    (l₁ ++ x :: l₂).dropWhile p = l₁.dropWhile p ++ x :: l₂ := by
  induction l₁ with
  | nil =>
    simp only [List.nil_append, List.dropWhile_cons, hx]
    simp
  | cons a as ih =>
    simp only [List.cons_append, List.dropWhile_cons]
    by_cases hp : p a
    · simp [hp, ih]
    · simp [hp]

theorem dropWhile_replicate_append {α : Type} (p : α → Bool) (a : α) (k : Nat) (l : List α)
    (ha : p a = true) :
    (List.replicate k a ++ l).dropWhile p = l.dropWhile p := by
  induction k with
  | zero => simp
  | succ k ih =>
    rw [List.replicate_succ]
    simp only [List.cons_append, List.dropWhile_cons, ha]
    simpa using ih

theorem dropWhile_head_ne {α : Type} (p : α → Bool) (x : α) (l : List α) (hx : p x = false) :
    (x :: l).dropWhile p = x :: l := by
  simp [List.dropWhile_cons, hx]

theorem jsTrim_eq_self {l : List Char} (h : ∀ c ∈ l, jsWhitespace c = false) :
    jsTrim l = l := by
  unfold jsTrim
  rw [dropWhile_eq_self _ _ h, dropWhile_eq_self, List.reverse_reverse]
  intro c hc
  exact h c (List.mem_reverse.mp hc)

theorem filter_eq_self_of {α : Type} (p : α → Bool) (l : List α) (h : ∀ c ∈ l, p c = true) :
    l.filter p = l :=
  List.filter_eq_self.mpr h

/-! ## jsSplit lemmas -/

theorem jsSplit_ne_nil (sep : Char) (l : List Char) : jsSplit sep l ≠ [] := by
  cases l with
  | nil => simp [jsSplit]
  | cons c rest =>
    simp only [jsSplit]
    by_cases h : c = sep
    · simp [h]
    · simp only [if_neg h]
      cases jsSplit sep rest <;> simp

theorem jsSplit_no_sep (sep : Char) (l : List Char) (h : sep ∉ l) : jsSplit sep l = [l] := by
  induction l with
  | nil => rfl
  | cons c rest ih =>
    have hc : c ≠ sep := fun he => h (he ▸ List.mem_cons_self c rest)
    have hrest : sep ∉ rest := fun hm => h (List.mem_cons_of_mem c hm)
    simp only [jsSplit, if_neg hc, ih hrest]

theorem jsSplit_append (sep : Char) (l₁ l₂ : List Char) (h : sep ∉ l₁) :
    jsSplit sep (l₁ ++ sep :: l₂) = l₁ :: jsSplit sep l₂ := by
  induction l₁ with
  | nil => simp [jsSplit]
  | cons c rest ih =>
    have hc : c ≠ sep := fun he => h (he ▸ List.mem_cons_self c rest)
    have hrest : sep ∉ rest := fun hm => h (List.mem_cons_of_mem c hm)
    simp only [List.cons_append, jsSplit, if_neg hc]
    rw [show rest.append (sep :: l₂) = rest ++ sep :: l₂ from rfl, ih hrest]

/-! ## valMSB and rendering lemmas -/

theorem valMSB_append (x y : List Char) :
    valMSB (x ++ y) = valMSB x * 10 ^ y.length + valMSB y := by
  unfold valMSB
  rw [List.map_append, List.reverse_append, ofDigitsLE_append]
  simp only [List.length_reverse, List.length_map]
  ring

theorem valMSB_nil : valMSB [] = 0 := rfl

theorem valMSB_replicate_zero (k : Nat) : valMSB (List.replicate k '0') = 0 := by
  induction k with
  | zero => rfl
  | succ k ih =>
    rw [List.replicate_succ]
    have : ('0' :: List.replicate k '0' : List Char) = ['0'] ++ List.replicate k '0' := rfl
    rw [this, valMSB_append, ih]
    simp [valMSB, ofDigitsLE, charToDigit]

theorem valMSB_lt (l : List Char) (h : ∀ c ∈ l, isDigitChar c = true) :
    valMSB l < 10 ^ l.length := by
  unfold valMSB
  have hlen : ((l.map charToDigit).reverse).length = l.length := by simp
  rw [← hlen]
  apply ofDigitsLE_lt 10 (by omega)
  intro d hd
  rw [List.mem_reverse, List.mem_map] at hd
  obtain ⟨c, hc, rfl⟩ := hd
  exact charToDigit_lt (h c hc)

theorem valMSB_renderCore (n : Nat) : valMSB (renderCore n) = n := by
  unfold valMSB renderCore
  rw [List.map_map, List.map_reverse, List.reverse_reverse]
  have hmap : (toDigitsLE 10 n).map (charToDigit ∘ digitChar) = toDigitsLE 10 n := by
    have := List.map_congr_left (l := toDigitsLE 10 n)
      (f := charToDigit ∘ digitChar) (g := id)
      (fun d hd => charToDigit_digitChar (toDigitsLE_lt_base 10 (by omega) n d hd))
    simpa using this
  rw [hmap]
  exact ofDigitsLE_toDigitsLE 10 (by omega) n

theorem renderCore_all_digits (n : Nat) : ∀ c ∈ renderCore n, isDigitChar c = true := by
  intro c hc
  unfold renderCore at hc
  rw [List.mem_map] at hc
  obtain ⟨d, hd, rfl⟩ := hc
  rw [List.mem_reverse] at hd
  exact isDigitChar_digitChar (toDigitsLE_lt_base 10 (by omega) n d hd)

theorem renderCore_eq_nil_iff (n : Nat) : renderCore n = [] ↔ n = 0 := by
  unfold renderCore
  rw [← toDigitsLE_eq_nil_iff 10 (by omega) n]
  constructor
  · intro h
    have : (toDigitsLE 10 n).reverse = [] := List.map_eq_nil_iff.mp h
    simpa using this
  · intro h
    rw [h]
    rfl

theorem renderCore_head_ne_zero (n : Nat) {c : Char} (h : (renderCore n).head? = some c) :
    c ≠ '0' := by
  unfold renderCore at h
  rw [List.head?_map, List.head?_reverse] at h
  obtain ⟨d, hd, hc⟩ := Option.map_eq_some.mp h
  have hd10 : d < 10 := by
    apply toDigitsLE_lt_base 10 (by omega) n
    exact List.mem_of_getLast?_eq_some hd
  have hdz : d ≠ 0 := toDigitsLE_getLast?_ne_zero 10 (by omega) n d hd
  rw [← hc]
  intro he
  exact hdz ((digitChar_eq_zero_iff hd10).mp he)

/-- Fixed-width uniqueness at character level: left-padding the canonical
rendering of the value of a digit string back to its original length
recovers the string. -/
theorem padLeftTo_renderCore_valMSB (L : List Char) (h : ∀ c ∈ L, isDigitChar c = true) :
    padLeftTo L.length '0' (renderCore (valMSB L)) = L := by
  have hM : ∀ d ∈ (L.map charToDigit).reverse, d < 10 := by
    intro d hd
    rw [List.mem_reverse, List.mem_map] at hd
    obtain ⟨c, hc, rfl⟩ := hd
    exact charToDigit_lt (h c hc)
  have hD := toDigitsLE_ofDigitsLE_pad 10 (by omega) _ hM
  have hval : ofDigitsLE 10 ((L.map charToDigit).reverse) = valMSB L := rfl
  rw [hval] at hD
  have hrev := congrArg List.reverse hD
  rw [List.reverse_append, List.reverse_replicate, List.reverse_reverse] at hrev
  have hmapped := congrArg (List.map digitChar) hrev
  rw [List.map_append, List.map_replicate, List.map_map] at hmapped
  have hid : List.map (digitChar ∘ charToDigit) L = L := by
    have := List.map_congr_left (l := L) (f := digitChar ∘ charToDigit) (g := id)
      (fun c hc => digitChar_charToDigit (h c hc))
    simpa using this
  rw [hid, show digitChar 0 = '0' from rfl] at hmapped
  simp only [List.length_reverse, List.length_map] at hmapped
  unfold padLeftTo renderCore
  simp only [List.length_map, List.length_reverse]
  exact hmapped

/-- Stripping leading zeros of a digit string yields the canonical
rendering of its value. -/
theorem dropZeros_renderNat (L : List Char) (h : ∀ c ∈ L, isDigitChar c = true) :
    (if L.dropWhile (fun c => c = '0') = [] then ['0']
     else L.dropWhile (fun c => c = '0')) = renderNat (valMSB L) := by
  have hL := padLeftTo_renderCore_valMSB L h
  unfold padLeftTo at hL
  have hdrop : L.dropWhile (fun c => c = '0') = renderCore (valMSB L) := by
    conv_lhs => rw [← hL]
    rw [dropWhile_replicate_append _ _ _ _ (by simp)]
    cases hrc : renderCore (valMSB L) with
    | nil => rfl
    | cons c cs =>
      apply dropWhile_head_ne
      have hc : c ≠ '0' := renderCore_head_ne_zero (valMSB L) (by rw [hrc]; rfl)
      simp [hc]
  rw [hdrop]
  unfold renderNat
  by_cases hz : valMSB L = 0
  · rw [hz, if_pos ((renderCore_eq_nil_iff 0).mpr rfl), if_pos rfl]
  · rw [if_neg hz, if_neg fun he => hz ((renderCore_eq_nil_iff _).mp he)]

/-- A nonempty digit string with no leading zero is the canonical
rendering of its value. -/
theorem renderCore_of_canonical (X : List Char) (h : ∀ c ∈ X, isDigitChar c = true)
    (hh : X.head? ≠ some '0') : renderCore (valMSB X) = X := by
  have hX := padLeftTo_renderCore_valMSB X h
  unfold padLeftTo at hX
  rcases hk : X.length - (renderCore (valMSB X)).length with _ | k
  · rw [hk] at hX
    simpa using hX
  · rw [hk, List.replicate_succ] at hX
    exfalso
    apply hh
    rw [← hX]
    rfl

theorem valMSB_dropWhile_zero (l : List Char) :
    valMSB (l.dropWhile (fun c => c = '0')) = valMSB l := by
  conv_rhs => rw [← List.takeWhile_append_dropWhile (p := fun c => c = '0') (l := l)]
  rw [valMSB_append]
  have htw : l.takeWhile (fun c => c = '0') =
      List.replicate (l.takeWhile (fun c => c = '0')).length '0' := by
    apply List.eq_replicate_of_mem
    intro b hb
    have := List.mem_takeWhile_imp hb
    simpa using this
  rw [htw, valMSB_replicate_zero]
  omega

/-- Decomposition of a digit-and-at-most-one-dot string. -/
theorem decimalString_decomp (s : List Char) (hd : ∀ c ∈ s, c = '.' ∨ isDigitChar c = true)
    (hc : s.count '.' ≤ 1) :
    ((∀ c ∈ s, isDigitChar c = true) ∧ jsSplit '.' s = [s]) ∨
    (∃ I F, s = I ++ '.' :: F ∧ (∀ c ∈ I, isDigitChar c = true) ∧
      (∀ c ∈ F, isDigitChar c = true) ∧ jsSplit '.' s = [I, F]) := by
  by_cases hdot : '.' ∈ s
  · right
    set I := s.takeWhile (fun c => c ≠ '.') with hI
    set rest := s.dropWhile (fun c => c ≠ '.') with hrest
    have hsplit : s = I ++ rest :=
      (List.takeWhile_append_dropWhile (p := fun c => c ≠ '.') (l := s)).symm
    have hrestne : rest ≠ [] := by
      intro he
      rw [he, List.append_nil] at hsplit
      have : '.' ∈ I := hsplit ▸ hdot
      have := List.mem_takeWhile_imp this
      simp at this
    obtain ⟨x, F, hxF⟩ := List.exists_cons_of_ne_nil hrestne
    have hxdot : x = '.' := by
      have : rest.head? = some x := by rw [hxF]; rfl
      have hhd := List.head?_dropWhile_not (p := fun c => c ≠ '.') (l := s)
      rw [← hrest] at hhd
      rw [this] at hhd
      simpa using hhd
    have hInodot : '.' ∉ I := by
      intro hm
      have := List.mem_takeWhile_imp hm
      simp at this
    have hIdig : ∀ c ∈ I, isDigitChar c = true := by
      intro c hcm
      have hcs : c ∈ s := hsplit ▸ List.mem_append_left rest hcm
      rcases hd c hcs with h1 | h1
      · exact absurd (h1 ▸ hcm) hInodot
      · exact h1
    have hsIF : s = I ++ '.' :: F := by rw [hsplit, hxF, hxdot]
    have hFcount : F.count '.' = 0 := by
      have := hc
      rw [hsIF, List.count_append, List.count_cons_self] at this
      omega
    have hFnodot : '.' ∉ F := by
      intro hm
      have := List.count_pos_iff.mpr hm
      omega
    have hFdig : ∀ c ∈ F, isDigitChar c = true := by
      intro c hcm
      have hcs : c ∈ s := by
        rw [hsIF]
        exact List.mem_append_right I (List.mem_cons_of_mem '.' hcm)
      rcases hd c hcs with h1 | h1
      · exact absurd (h1 ▸ hcm) hFnodot
      · exact h1
    refine ⟨I, F, hsIF, hIdig, hFdig, ?_⟩
    rw [hsIF, jsSplit_append _ _ _ hInodot, jsSplit_no_sep _ _ hFnodot]
  · left
    have hdig : ∀ c ∈ s, isDigitChar c = true := by
      intro c hcm
      rcases hd c hcm with h1 | h1
      · exact absurd (h1 ▸ hcm) hdot
      · exact h1
    exact ⟨hdig, jsSplit_no_sep _ _ hdot⟩

/-! ## Evaluation of the amount parser on digit strings -/

theorem jsBigIntOfString_digits (L : List Char) (hL : ∀ c ∈ L, isDigitChar c = true)
    (hne : L ≠ []) : jsBigIntOfString L = some ((valMSB L : Nat) : Int) := by
  have htrim : jsTrim L = L := jsTrim_eq_self (fun c hc => isDigitChar_not_ws (hL c hc))
  obtain ⟨d, rest, hcons⟩ := List.exists_cons_of_ne_nil hne
  have hd : isDigitChar d = true := hL d (hcons ▸ List.mem_cons_self d rest)
  have hdne := isDigitChar_ne hd
  simp only [jsBigIntOfString, htrim]
  rw [if_neg hne]
  have hhead : L.head? = some d := by rw [hcons]; rfl
  rw [if_neg (by rw [hhead]; intro he; exact hdne.2.1 (Option.some_inj.mp he)),
      if_neg (by rw [hhead]; intro he; exact hdne.2.2.1 (Option.some_inj.mp he)),
      if_pos (List.all_eq_true.mpr hL)]

theorem parse_raw_digits (I F : List Char)
    (hI : ∀ c ∈ I, isDigitChar c = true) (hF : ∀ c ∈ F, isDigitChar c = true)
    (hFlen : F.length ≤ 18) (segs : List (List Char))
    (hsegs : segs = [I, F] ∨ (segs = [I] ∧ F = [])) :
    (let integerPartRaw := segs.headD []
     let fractionalRaw := (segs.drop 1).headD []
     let integerPart := if integerPartRaw = [] then ['0'] else integerPartRaw
     if 18 < fractionalRaw.length then (.error .tooManyDecimals : Except EncodeErr Int)
     else
       let fractionalPart := fractionalRaw ++ List.replicate (18 - fractionalRaw.length) '0'
       let digits0 := (integerPart ++ fractionalPart).dropWhile (fun c => c = '0')
       let digits := if digits0 = [] then ['0'] else digits0
       match jsBigIntOfString digits with
       | some v => .ok v
       | none => .error .invalidAmountFormat) =
    .ok ((valMSB I * 10 ^ 18 +
      valMSB (F ++ List.replicate (18 - F.length) '0') : Nat) : Int) := by
  have hIF : segs.headD [] = I ∧ (segs.drop 1).headD [] = F := by
    rcases hsegs with h | ⟨h, hF0⟩
    · rw [h]; exact ⟨rfl, rfl⟩
    · rw [h, hF0]; exact ⟨rfl, rfl⟩
  rw [hIF.1, hIF.2]
  simp only
  rw [if_neg (by omega)]
  set Ii := if I = [] then ['0'] else I with hIi
  set fp := F ++ List.replicate (18 - F.length) '0' with hfp
  have hIiDig : ∀ c ∈ Ii, isDigitChar c = true := by
    rw [hIi]
    by_cases hInil : I = []
    · rw [if_pos hInil]
      intro c hc
      rw [List.mem_singleton] at hc
      rw [hc]
      exact zeroChar_isDigit
    · rw [if_neg hInil]
      exact hI
  have hfpDig : ∀ c ∈ fp, isDigitChar c = true := by
    intro c hc
    rcases List.mem_append.mp hc with h1 | h1
    · exact hF c h1
    · rw [List.eq_of_mem_replicate h1]
      exact zeroChar_isDigit
  set digits0 := (Ii ++ fp).dropWhile (fun c => c = '0') with hdig0
  set digits := if digits0 = [] then ['0'] else digits0 with hdig
  have hdigitsDig : ∀ c ∈ digits, isDigitChar c = true := by
    rw [hdig]
    by_cases hnil : digits0 = []
    · rw [if_pos hnil]
      intro c hc
      rw [List.mem_singleton] at hc
      rw [hc]
      exact zeroChar_isDigit
    · rw [if_neg hnil]
      intro c hc
      have hmem : c ∈ Ii ++ fp := (List.dropWhile_sublist _).mem (hdig0 ▸ hc)
      rcases List.mem_append.mp hmem with h1 | h1
      · exact hIiDig c h1
      · exact hfpDig c h1
  have hdigitsNe : digits ≠ [] := by
    rw [hdig]
    by_cases hnil : digits0 = []
    · rw [if_pos hnil]; simp
    · rw [if_neg hnil]; exact hnil
  have hvdigits : valMSB digits = valMSB I * 10 ^ 18 + valMSB fp := by
    have hv0 : valMSB digits = valMSB (Ii ++ fp) := by
      rw [hdig]
      by_cases hnil : digits0 = []
      · rw [if_pos hnil, ← valMSB_dropWhile_zero (Ii ++ fp), ← hdig0, hnil]
        rfl
      · rw [if_neg hnil, hdig0, valMSB_dropWhile_zero]
    have hfplen : fp.length = 18 := by
      rw [hfp]
      simp only [List.length_append, List.length_replicate]
      omega
    have hvIi : valMSB Ii = valMSB I := by
      rw [hIi]
      by_cases hInil : I = []
      · rw [if_pos hInil, hInil]
        rfl
      · rw [if_neg hInil]
    rw [hv0, valMSB_append, hfplen, hvIi]
  rw [jsBigIntOfString_digits digits hdigitsDig hdigitsNe, hvdigits]

theorem parseAmountToU128_digits_dot (I F : List Char)
    (hI : ∀ c ∈ I, isDigitChar c = true) (hF : ∀ c ∈ F, isDigitChar c = true)
    (hFlen : F.length ≤ 18) :
    parseAmountToU128 (I ++ '.' :: F) =
      .ok ((valMSB I * 10 ^ 18 +
        valMSB (F ++ List.replicate (18 - F.length) '0') : Nat) : Int) := by
  set s := I ++ '.' :: F with hs
  have hall : ∀ c ∈ s, c = '.' ∨ isDigitChar c = true := by
    intro c hc
    rw [hs] at hc
    rcases List.mem_append.mp hc with h1 | h1
    · exact Or.inr (hI c h1)
    · rcases List.mem_cons.mp h1 with h2 | h2
      · exact Or.inl h2
      · exact Or.inr (hF c h2)
  have hnws : ∀ c ∈ s, jsWhitespace c = false := by
    intro c hc
    rcases hall c hc with h1 | h1
    · rw [h1]; exact dot_not_ws
    · exact isDigitChar_not_ws h1
  have htrim : jsTrim s = s := jsTrim_eq_self hnws
  have hfilter : s.filter (fun c => c ≠ '_') = s := by
    apply filter_eq_self_of
    intro c hc
    rcases hall c hc with h1 | h1
    · rw [h1]; decide
    · simp [(isDigitChar_ne h1).1]
  have hne : s ≠ [] := by
    rw [hs]
    cases I <;> simp
  have hheads : ∀ c, s.head? = some c → c = '.' ∨ isDigitChar c = true := by
    intro c hc
    apply hall
    exact List.mem_of_mem_head? (hc ▸ rfl)
  have hheadm : ¬ s.head? = some '-' := by
    intro hc
    rcases hheads '-' hc with h1 | h1
    · exact absurd h1 (by decide)
    · exact absurd h1 (by decide)
  have hheadp : ¬ s.head? = some '+' := by
    intro hc
    rcases hheads '+' hc with h1 | h1
    · exact absurd h1 (by decide)
    · exact absurd h1 (by decide)
  have hsp : stripLeadingPlus s = s := by
    unfold stripLeadingPlus
    rw [if_neg hheadp]
  have hInodot : '.' ∉ I := fun hm => (isDigitChar_ne (hI '.' hm)).2.2.2 rfl
  have hFnodot : '.' ∉ F := fun hm => (isDigitChar_ne (hF '.' hm)).2.2.2 rfl
  have hsplit : jsSplit '.' s = [I, F] := by
    rw [hs, jsSplit_append _ _ _ hInodot, jsSplit_no_sep _ _ hFnodot]
  simp only [parseAmountToU128, parseRawAmount, htrim, hfilter]
  rw [if_neg hne, if_neg hheadm, hsp, hsplit]
  exact parse_raw_digits I F hI hF hFlen [I, F] (Or.inl rfl)

theorem parseAmountToU128_digits_only (I : List Char) (hne : I ≠ [])
    (hI : ∀ c ∈ I, isDigitChar c = true) :
    parseAmountToU128 I = .ok ((valMSB I * 10 ^ 18 : Nat) : Int) := by
  have hnws : ∀ c ∈ I, jsWhitespace c = false := fun c hc => isDigitChar_not_ws (hI c hc)
  have htrim : jsTrim I = I := jsTrim_eq_self hnws
  have hfilter : I.filter (fun c => c ≠ '_') = I := by
    apply filter_eq_self_of
    intro c hc
    simp [(isDigitChar_ne (hI c hc)).1]
  have hheads : ∀ c, I.head? = some c → isDigitChar c = true := by
    intro c hc
    exact hI c (List.mem_of_mem_head? (hc ▸ rfl))
  have hheadm : ¬ I.head? = some '-' := by
    intro hc
    exact absurd (hheads '-' hc) (by decide)
  have hheadp : ¬ I.head? = some '+' := by
    intro hc
    exact absurd (hheads '+' hc) (by decide)
  have hsp : stripLeadingPlus I = I := by
    unfold stripLeadingPlus
    rw [if_neg hheadp]
  have hInodot : '.' ∉ I := fun hm => (isDigitChar_ne (hI '.' hm)).2.2.2 rfl
  have hsplit : jsSplit '.' I = [I] := jsSplit_no_sep _ _ hInodot
  have hstep := parse_raw_digits I [] hI (by simp) (by simp) [I] (Or.inr ⟨rfl, rfl⟩)
  simp only [List.nil_append, List.length_nil, Nat.sub_zero, valMSB_replicate_zero,
    Nat.add_zero] at hstep
  simp only [parseAmountToU128, parseRawAmount, htrim, hfilter]
  rw [if_neg hne, if_neg hheadm, hsp, hsplit]
  exact hstep

/-! ## The spec decode direction: splitting the padded rendering -/

theorem stripTrailingZeros_append_zeros (X : List Char) (k : Nat) :
    stripTrailingZeros (X ++ List.replicate k '0') = stripTrailingZeros X := by
  unfold stripTrailingZeros
  rw [List.reverse_append, List.reverse_replicate,
    dropWhile_replicate_append _ _ _ _ (by simp)]

theorem toDigitsLE_length_scale (a : Nat) (ha : 0 < a) :
    ∀ k r, r < 10 ^ k →
      (toDigitsLE 10 (a * 10 ^ k + r)).length = (toDigitsLE 10 a).length + k := by
  intro k
  induction k with
  | zero =>
    intro r hr
    have hr0 : r = 0 := by
      have : (10 : Nat) ^ 0 = 1 := by norm_num
      omega
    simp [hr0]
  | succ k ih =>
    intro r hr
    have h10 : (0 : Nat) < 10 ^ (k + 1) := Nat.pow_pos (by omega)
    have hN : a * 10 ^ (k + 1) + r ≠ 0 := by
      have := Nat.mul_pos ha h10
      omega
    rw [toDigitsLE_eq 10 (by omega), if_neg hN]
    simp only [List.length_cons]
    have hdiv : (a * 10 ^ (k + 1) + r) / 10 = a * 10 ^ k + r / 10 := by
      have : a * 10 ^ (k + 1) + r = 10 * (a * 10 ^ k) + r := by ring
      rw [this, Nat.mul_add_div (by omega)]
    have hrdiv : r / 10 < 10 ^ k := by
      rw [Nat.div_lt_iff_lt_mul (by omega)]
      calc r < 10 ^ (k + 1) := hr
        _ = 10 ^ k * 10 := by ring
    rw [hdiv, ih (r / 10) hrdiv]
    omega

theorem padded_render_split (a r : Nat) (hr : r < 10 ^ 18) :
    padLeftTo 19 '0' (renderNat (a * 10 ^ 18 + r)) =
      renderNat a ++ padLeftTo 18 '0' (renderCore r) := by
  have hrlen : (renderCore r).length ≤ 18 := by
    unfold renderCore
    simp only [List.length_map, List.length_reverse]
    exact toDigitsLE_length_le 10 (by omega) 18 r hr
  by_cases ha : a = 0
  · subst ha
    simp only [Nat.zero_mul, Nat.zero_add]
    by_cases hr0 : r = 0
    · subst hr0
      decide
    · have hrc : renderCore r ≠ [] := fun he => hr0 ((renderCore_eq_nil_iff r).mp he)
      have hL : 1 ≤ (renderCore r).length := by
        cases hrc' : renderCore r with
        | nil => exact absurd hrc' hrc
        | cons c cs => simp
      unfold renderNat padLeftTo
      rw [if_neg hr0]
      have h19 : 19 - (renderCore r).length = (18 - (renderCore r).length) + 1 := by omega
      rw [h19, if_pos rfl, List.replicate_succ]
      rfl
  · have haN : a * 10 ^ 18 + r ≠ 0 := by
      have h10 : (0 : Nat) < 10 ^ 18 := Nat.pow_pos (by omega)
      have := Nat.mul_pos (Nat.pos_of_ne_zero ha) h10
      omega
    have hlenN : (toDigitsLE 10 (a * 10 ^ 18 + r)).length = (toDigitsLE 10 a).length + 18 :=
      toDigitsLE_length_scale a (Nat.pos_of_ne_zero ha) 18 r hr
    have hlena : 1 ≤ (toDigitsLE 10 a).length := by
      cases hta : toDigitsLE 10 a with
      | nil => exact absurd ((toDigitsLE_eq_nil_iff 10 (by omega) a).mp hta) ha
      | cons d ds => simp
    set R := renderCore a ++ padLeftTo 18 '0' (renderCore r) with hR
    have hfpDig : ∀ c ∈ padLeftTo 18 '0' (renderCore r), isDigitChar c = true := by
      intro c hc
      unfold padLeftTo at hc
      rcases List.mem_append.mp hc with h1 | h1
      · rw [List.eq_of_mem_replicate h1]
        exact zeroChar_isDigit
      · exact renderCore_all_digits r c h1
    have hRdig : ∀ c ∈ R, isDigitChar c = true := by
      intro c hc
      rw [hR] at hc
      rcases List.mem_append.mp hc with h1 | h1
      · exact renderCore_all_digits a c h1
      · exact hfpDig c h1
    have hfplen : (padLeftTo 18 '0' (renderCore r)).length = 18 := by
      unfold padLeftTo
      simp only [List.length_append, List.length_replicate]
      omega
    have hfpval : valMSB (padLeftTo 18 '0' (renderCore r)) = r := by
      unfold padLeftTo
      rw [valMSB_append, valMSB_replicate_zero, valMSB_renderCore]
      omega
    have hRval : valMSB R = a * 10 ^ 18 + r := by
      rw [hR, valMSB_append, hfplen, hfpval, valMSB_renderCore]
    have hahead : ∃ c, (renderCore a).head? = some c := by
      cases hrc : renderCore a with
      | nil => exact absurd ((renderCore_eq_nil_iff a).mp hrc) ha
      | cons c cs => exact ⟨c, rfl⟩
    have hRhead : R.head? ≠ some '0' := by
      obtain ⟨c, hc⟩ := hahead
      have hcz : c ≠ '0' := renderCore_head_ne_zero a hc
      rw [hR]
      cases hrc : renderCore a with
      | nil => exact absurd ((renderCore_eq_nil_iff a).mp hrc) ha
      | cons d ds =>
        rw [hrc] at hc
        simp only [List.cons_append, List.head?_cons]
        intro he
        exact hcz (by
          have : d = '0' := Option.some_inj.mp he
          have hd : c = d := Option.some_inj.mp hc.symm
          rw [hd, this])
    have hcanon : renderCore (valMSB R) = R := renderCore_of_canonical R hRdig hRhead
    rw [hRval] at hcanon
    have hNr : renderNat (a * 10 ^ 18 + r) = R := by
      unfold renderNat
      rw [if_neg haN]
      exact hcanon
    rw [hNr]
    have hRlen : 19 ≤ R.length := by
      rw [hR]
      simp only [List.length_append, hfplen]
      unfold renderCore
      simp only [List.length_map, List.length_reverse]
      omega
    unfold padLeftTo
    have : 19 - R.length = 0 := by omega
    rw [this]
    simp only [List.replicate, List.nil_append]
    rw [hR]
    unfold renderNat
    rw [if_neg ha]
    rfl

/-- Evaluation of the spec decode on a value split into integer and
fractional components. -/
theorem decodeAmount_split (a r : Nat) (hr : r < 10 ^ 18) :
    decodeAmount (a * 10 ^ 18 + r) =
      if stripTrailingZeros (padLeftTo 18 '0' (renderCore r)) = [] then renderNat a
      else renderNat a ++ '.' :: stripTrailingZeros (padLeftTo 18 '0' (renderCore r)) := by
  have hfplen : (padLeftTo 18 '0' (renderCore r)).length = 18 := by
    unfold padLeftTo
    simp only [List.length_append, List.length_replicate]
    have : (renderCore r).length ≤ 18 := by
      unfold renderCore
      simp only [List.length_map, List.length_reverse]
      exact toDigitsLE_length_le 10 (by omega) 18 r hr
    omega
  have hlen : (renderNat a ++ padLeftTo 18 '0' (renderCore r)).length - 18
      = (renderNat a).length := by
    simp only [List.length_append, hfplen]
    omega
  simp only [decodeAmount]
  rw [padded_render_split a r hr, hlen, List.take_left, List.drop_left]

/-! ## Extra point-separated segments are discarded -/

theorem head?_append_cons {α : Type} (A l : List α) (x : α) :
    (A ++ x :: l).head? = (A ++ [x]).head? := by
  cases A <;> rfl

theorem stripLeadingPlus_append_cons (A l : List Char) :
    stripLeadingPlus (A ++ '.' :: l) =
      (if A.head? = some '+' then A.tail else A) ++ '.' :: l := by
  unfold stripLeadingPlus
  cases A with
  | nil => simp
  | cons ch rest =>
    by_cases hch : ch = '+'
    · rw [hch]
      simp
    · have h1 : ((ch :: rest : List Char) ++ '.' :: l).head? = some ch := rfl
      have h2 : ((ch :: rest : List Char)).head? = some ch := rfl
      rw [h1, h2, if_neg (by simpa using hch), if_neg (by simpa using hch)]

/-- After normalisation, any segments beyond the first two of the split
are never consulted: a raw amount with a second decimal point parses
exactly as its truncation to the first two segments. -/
theorem parseRawAmount_extra_segment (A X rest : List Char)
    (hA : '.' ∉ A) (hX : '.' ∉ X) :
    parseRawAmount (A ++ '.' :: (X ++ '.' :: rest)) = parseRawAmount (A ++ '.' :: X) := by
  have hne1 : A ++ '.' :: (X ++ '.' :: rest) ≠ [] := by cases A <;> simp
  have hne2 : A ++ '.' :: X ≠ [] := by cases A <;> simp
  have hhead : (A ++ '.' :: (X ++ '.' :: rest)).head? = (A ++ '.' :: X).head? := by
    rw [head?_append_cons A (X ++ '.' :: rest) '.', head?_append_cons A X '.']
  have hAPdot : '.' ∉ (if A.head? = some '+' then A.tail else A) := by
    by_cases h : A.head? = some '+'
    · rw [if_pos h]
      intro hm
      exact hA (List.mem_of_mem_tail hm)
    · rw [if_neg h]
      exact hA
  have hstrip1 := stripLeadingPlus_append_cons A (X ++ '.' :: rest)
  have hstrip2 := stripLeadingPlus_append_cons A X
  have hsplit1 : jsSplit '.' ((if A.head? = some '+' then A.tail else A) ++ '.' :: (X ++ '.' :: rest))
      = (if A.head? = some '+' then A.tail else A) :: X :: jsSplit '.' rest := by
    rw [jsSplit_append '.' _ (X ++ '.' :: rest) hAPdot, jsSplit_append '.' X rest hX]
  have hsplit2 : jsSplit '.' ((if A.head? = some '+' then A.tail else A) ++ '.' :: X)
      = [if A.head? = some '+' then A.tail else A, X] := by
    rw [jsSplit_append '.' _ X hAPdot, jsSplit_no_sep '.' X hX]
  simp only [parseRawAmount]
  rw [if_neg hne1, if_neg hne2, hhead]
  by_cases hm : (A ++ '.' :: X).head? = some '-'
  · rw [if_pos hm, if_pos hm]
  · rw [if_neg hm, if_neg hm, hstrip1, hstrip2, hsplit1, hsplit2]
    simp only [List.headD_cons, List.drop_succ_cons, List.drop_zero]

theorem dropWhile_ws_shape (a tail : List Char) :
    (a ++ '.' :: tail).dropWhile jsWhitespace = a.dropWhile jsWhitespace ++ '.' :: tail :=
  dropWhile_append_cons _ _ _ _ dot_not_ws

/-- The two-sided trim of an amount string with a second decimal point:
the left trim acts inside the leading segment and the right trim inside
the trailing one. -/
theorem jsTrim_two_dots (a b c : List Char) :
    jsTrim (a ++ '.' :: (b ++ '.' :: c)) =
      a.dropWhile jsWhitespace ++ '.' :: (b ++ '.' :: (c.reverse.dropWhile jsWhitespace).reverse) := by
  unfold jsTrim
  rw [dropWhile_ws_shape a (b ++ '.' :: c)]
  set A := a.dropWhile jsWhitespace with hA
  have hrev : (A ++ '.' :: (b ++ '.' :: c)).reverse
      = c.reverse ++ '.' :: (b.reverse ++ '.' :: A.reverse) := by
    simp [List.reverse_append, List.append_assoc]
  rw [hrev, dropWhile_append_cons _ _ _ _ dot_not_ws]
  simp [List.reverse_append, List.append_assoc]

/-- The two-sided trim of a dotted amount string whose fractional part
contains no whitespace. -/
theorem jsTrim_one_dot (a b : List Char) (hbw : ∀ ch ∈ b, jsWhitespace ch = false) :
    jsTrim (a ++ '.' :: b) = a.dropWhile jsWhitespace ++ '.' :: b := by
  unfold jsTrim
  rw [dropWhile_ws_shape a b]
  set A := a.dropWhile jsWhitespace with hA
  have hrev : (A ++ '.' :: b).reverse = b.reverse ++ '.' :: A.reverse := by
    simp [List.reverse_append]
  rw [hrev, dropWhile_append_cons _ _ _ _ dot_not_ws,
    dropWhile_eq_self _ _ (fun ch hc => hbw ch (List.mem_reverse.mp hc))]
  simp [List.reverse_append]

theorem filter_underscore_shape (A X : List Char) :
    (A ++ '.' :: X).filter (fun ch => ch ≠ '_') =
      A.filter (fun ch => ch ≠ '_') ++ '.' :: X.filter (fun ch => ch ≠ '_') := by
  rw [List.filter_append, List.filter_cons, if_pos (by decide)]

/-! ## Byte-level helper lemmas -/

theorem int_emod_eq_mod (x y : Int) : x.emod y = x % y := rfl

theorem u128LoopBytes_length : ∀ (k : Nat) (c : Int), (u128LoopBytes k c).length = k := by
  intro k
  induction k with
  | zero => intro c; rfl
  | succ k ih =>
    intro c
    simp only [u128LoopBytes, List.length_cons, ih]

theorem encodeU128LE_length (v : Int) : (encodeU128LE v).length = 16 :=
  u128LoopBytes_length 16 v

theorem chunkPairs_length : ∀ l : List Char, (chunkPairs l).length = l.length / 2
  | [] => rfl
  | [x] => by
    have h1 : chunkPairs [x] = [] := rfl
    rw [h1]
    simp
  | a :: b :: rest => by
    simp only [chunkPairs, List.length_cons, chunkPairs_length rest]
    omega

theorem chunkPairs_mem : ∀ (l : List Char) (p : Char × Char),
    p ∈ chunkPairs l → p.1 ∈ l ∧ p.2 ∈ l
  | [], p, hp => by simp [chunkPairs] at hp
  | [_], p, hp => by simp [chunkPairs] at hp
  | a :: b :: rest, p, hp => by
    simp only [chunkPairs, List.mem_cons] at hp
    rcases hp with h | h
    · rw [h]
      exact ⟨List.mem_cons_self a _, List.mem_cons_of_mem a (List.mem_cons_self b _)⟩
    · have := chunkPairs_mem rest p h
      exact ⟨List.mem_cons_of_mem a (List.mem_cons_of_mem b this.1),
        List.mem_cons_of_mem a (List.mem_cons_of_mem b this.2)⟩

theorem isHexDigitChar_bounds {c : Char} (h : isHexDigitChar c = true) :
    (48 ≤ c.toNat ∧ c.toNat ≤ 57) ∨ (97 ≤ c.toNat ∧ c.toNat ≤ 102) ∨
    (65 ≤ c.toNat ∧ c.toNat ≤ 70) := by
  simpa [isHexDigitChar, isDigitChar, Bool.or_eq_true, Bool.and_eq_true,
    decide_eq_true_eq, or_assoc] using h

theorem hexCharToDigit_lt {c : Char} (h : isHexDigitChar c = true) : hexCharToDigit c < 16 := by
  rcases isHexDigitChar_bounds h with h1 | h1 | h1
  · unfold hexCharToDigit
    rw [if_neg (by omega), if_neg (by omega)]
    omega
  · unfold hexCharToDigit
    rw [if_pos (by omega)]
    omega
  · unfold hexCharToDigit
    rw [if_neg (by omega), if_pos (by omega)]
    omega

theorem isHexDigitChar_not_ws {c : Char} (h : isHexDigitChar c = true) :
    jsWhitespace c = false := by
  rcases isHexDigitChar_bounds h with h1 | h1 | h1 <;>
    (simp only [jsWhitespace, Bool.or_eq_false_iff, decide_eq_false_iff_not]; omega)

theorem isHexDigitChar_ne {c : Char} (h : isHexDigitChar c = true) :
    c ≠ '-' ∧ c ≠ '+' ∧ c ≠ 'x' ∧ c ≠ 'X' := by
  refine ⟨?_, ?_, ?_, ?_⟩ <;> rintro rfl <;> exact absurd h (by decide)

theorem hexValMSB_pair (a b : Char) : hexValMSB [a, b] = 16 * hexCharToDigit a + hexCharToDigit b := by
  simp only [hexValMSB, List.map_cons, List.map_nil, List.reverse_cons, List.reverse_nil,
    List.nil_append, List.cons_append, List.singleton_append, ofDigitsLE]
  ring

theorem jsParseIntHex_hexPair (a b : Char) (ha : isHexDigitChar a = true)
    (hb : isHexDigitChar b = true) :
    jsToUint8 (jsParseIntHex [a, b]) = hexPairVal a b ∧ hexPairVal a b < 256 := by
  have hval : hexPairVal a b < 256 := by
    have h1 := hexCharToDigit_lt ha
    have h2 := hexCharToDigit_lt hb
    unfold hexPairVal
    omega
  refine ⟨?_, hval⟩
  have hdw : ([a, b] : List Char).dropWhile jsWhitespace = [a, b] :=
    dropWhile_eq_self _ _ (by
      intro ch hch
      rcases List.mem_cons.mp hch with h1 | h1
      · rw [h1]; exact isHexDigitChar_not_ws ha
      · rw [List.mem_singleton.mp h1]; exact isHexDigitChar_not_ws hb)
  have hane := isHexDigitChar_ne ha
  have hbne := isHexDigitChar_ne hb
  have hbody : parseIntHexBody [a, b] = some (hexValMSB [a, b]) := by
    have hnot0x : ¬(([a, b] : List Char).head? = some '0' ∧
        (([a, b] : List Char).tail.head? = some 'x' ∨
         ([a, b] : List Char).tail.head? = some 'X')) := by
      rintro ⟨h0, hx⟩
      simp only [List.tail_cons, List.head?_cons] at hx
      rcases hx with hx | hx
      · exact hbne.2.2.1 (Option.some_inj.mp hx)
      · exact hbne.2.2.2 (Option.some_inj.mp hx)
    have htake : ([a, b] : List Char).takeWhile isHexDigitChar = [a, b] := by
      simp only [List.takeWhile_cons, ha, hb, if_true, List.takeWhile_nil]
    have habne : ([a, b] : List Char) ≠ [] := by simp
    simp only [parseIntHexBody]
    rw [if_neg hnot0x, htake, if_neg habne]
  have hparse : jsParseIntHex [a, b] = some ((hexValMSB [a, b] : Nat) : Int) := by
    simp only [jsParseIntHex, hdw]
    rw [if_neg (by
        simp only [List.head?_cons]
        intro he
        exact hane.1 (Option.some_inj.mp he)),
      if_neg (by
        simp only [List.head?_cons]
        intro he
        exact hane.2.1 (Option.some_inj.mp he)),
      hbody]
    rfl
  rw [hparse]
  simp only [jsToUint8, hexValMSB_pair, int_emod_eq_mod]
  unfold hexPairVal at hval ⊢
  omega

theorem strip0xCI_of_hex (l : List Char) (hl : ∀ c ∈ l, isHexDigitChar c = true) :
    strip0xCI l = l := by
  unfold strip0xCI
  rw [if_neg]
  rintro ⟨h0, hx⟩
  have hmem : ∀ c, l.tail.head? = some c → c ∈ l := by
    intro c hc
    exact (List.tail_sublist l).mem (List.mem_of_mem_head? (hc ▸ rfl))
  rcases hx with hx | hx
  · exact (isHexDigitChar_ne (hl 'x' (hmem 'x' hx))).2.2.1 rfl
  · exact (isHexDigitChar_ne (hl 'X' (hmem 'X' hx))).2.2.2 rfl

theorem hexToBytes_allHex (l : List Char) (hl : ∀ c ∈ l, isHexDigitChar c = true)
    (he : l.length % 2 = 0) :
    hexToBytes l = .ok (hexPairsDecode l) ∧
    ∀ x ∈ hexPairsDecode l, x < 256 := by
  have hs := strip0xCI_of_hex l hl
  constructor
  · simp only [hexToBytes, hs]
    rw [if_neg (by omega)]
    congr 1
    unfold hexPairsDecode
    apply List.map_congr_left
    intro p hp
    have hmem := chunkPairs_mem l p hp
    exact (jsParseIntHex_hexPair p.1 p.2 (hl p.1 hmem.1) (hl p.2 hmem.2)).1
  · intro x hx
    unfold hexPairsDecode at hx
    rw [List.mem_map] at hx
    obtain ⟨p, hp, rfl⟩ := hx
    have hmem := chunkPairs_mem l p hp
    exact (jsParseIntHex_hexPair p.1 p.2 (hl p.1 hmem.1) (hl p.2 hmem.2)).2

theorem hexToBytes_shape (hex : List Char) :
    (hexToBytes hex = .error .invalidHexLength ↔ (strip0xCI hex).length % 2 = 1) ∧
    ((strip0xCI hex).length % 2 = 0 →
      ∃ bytes, hexToBytes hex = .ok bytes ∧ bytes.length = (strip0xCI hex).length / 2) := by
  by_cases he : (strip0xCI hex).length % 2 = 0
  · constructor
    · simp only [hexToBytes]
      rw [if_neg (by omega)]
      constructor
      · intro h
        cases h
      · intro h
        omega
    · intro _
      refine ⟨(chunkPairs (strip0xCI hex)).map (fun p => jsToUint8 (jsParseIntHex [p.1, p.2])),
        ?_, ?_⟩
      · simp only [hexToBytes]
        rw [if_neg (by omega)]
      · rw [List.length_map, chunkPairs_length]
  · constructor
    · simp only [hexToBytes]
      rw [if_pos (by omega)]
      constructor
      · intro _
        omega
      · intro _
        rfl
    · intro h
      exact absurd h he

/-! ## Claim theorems -/

/-- C10 (amended): for every amount string of the shape
integer-segment . second-segment . rest (with the second segment free of
whitespace), the parser behaves exactly as on the string truncated to its
first two point-separated segments; the extra segments are discarded
without themselves causing an error.  (As originally stated the claim is
false: the discarded-looking second segment still participates, so a
string with more than one point can raise an error, see the
counterexample.) -/
theorem claim_C10_extra_segments (a b c : List Char)
    (ha : '.' ∉ a) (hb : '.' ∉ b) (hbw : ∀ ch ∈ b, jsWhitespace ch = false) :
    parseAmountToU128 (a ++ '.' :: (b ++ '.' :: c)) = parseAmountToU128 (a ++ '.' :: b) ∧
    encodeAmount (a ++ '.' :: (b ++ '.' :: c)) = encodeAmount (a ++ '.' :: b) := by
  have hparse : parseAmountToU128 (a ++ '.' :: (b ++ '.' :: c))
      = parseAmountToU128 (a ++ '.' :: b) := by
    unfold parseAmountToU128
    rw [jsTrim_two_dots a b c, jsTrim_one_dot a b hbw,
      filter_underscore_shape, filter_underscore_shape, filter_underscore_shape]
    apply parseRawAmount_extra_segment
    · intro hm
      have := List.mem_filter.mp hm
      exact ha ((List.dropWhile_sublist _).mem this.1)
    · intro hm
      exact hb (List.mem_filter.mp hm).1
  exact ⟨hparse, by unfold encodeAmount; rw [hparse]⟩

/-- C10 counterexample: the claim that an amount string with more than one
decimal point never raises an error is false — a second segment longer
than 18 digits still triggers TooManyDecimals. -/
theorem claim_C10_counterexample :
    encodeAmount "1.1234567890123456789.2".data = .error .tooManyDecimals := by decide

/-- C10 witness: the amended theorem applied at "1.2.3", which encodes to
exactly the same bytes as "1.2". -/
theorem claim_C10_witness :
    parseAmountToU128 "1.2.3".data = parseAmountToU128 "1.2".data ∧
    encodeAmount "1.2.3".data = encodeAmount "1.2".data := by
  have h := claim_C10_extra_segments "1".data "2".data "3".data
    (by decide) (by decide) (by decide)
  exact h

/-- C1: whenever the owner codec and the amount codec both succeed, the
canonical payload is exactly the owner encoding, then the metadata
encoding (length-prefixed UTF-8 name, length-prefixed UTF-8 symbol, one
decimals byte), then the 16-byte little-endian amount encoding, with no
padding and no overall length prefix. -/
theorem claim_C1_payload_layout (owner name symbol : List Char) (decimals : Int)
    (supply : List Char) (ownerBytes amountBytes : List Nat)
    (hO : encodeAccountOwner owner = .ok ownerBytes)
    (hA : encodeAmount supply = .ok amountBytes) :
    encodeCreateTokenRequest owner name symbol decimals supply =
      .ok (ownerBytes ++
        (encodeU32LE (utf8Bytes name).length ++ utf8Bytes name ++
          (encodeU32LE (utf8Bytes symbol).length ++ utf8Bytes symbol ++
            ([(decimals.emod 256).toNat] ++ amountBytes)))) ∧
    amountBytes.length = 16 := by
  constructor
  · simp only [encodeCreateTokenRequest, hO, hA, encodeTokenMetadata, encodeString]
    congr 1
    simp [List.append_assoc, jsToUint8]
  · simp only [encodeAmount] at hA
    cases hp : parseAmountToU128 supply with
    | error e =>
      rw [hp] at hA
      simp [Except.map] at hA
    | ok v =>
      rw [hp] at hA
      simp only [Except.map] at hA
      have : encodeU128LE v = amountBytes := by
        injection hA
      rw [← this]
      exact encodeU128LE_length v

/-- C1 witness: the layout law at a concrete request (20-byte owner,
name "A", symbol "B", decimals 7, supply "1"). -/
theorem claim_C1_witness :
    encodeCreateTokenRequest (List.replicate 40 'a') "A".data "B".data 7 "1".data =
      .ok ((encodeU32LE 2 ++ List.replicate 20 170) ++
        (encodeU32LE (utf8Bytes "A".data).length ++ utf8Bytes "A".data ++
          (encodeU32LE (utf8Bytes "B".data).length ++ utf8Bytes "B".data ++
            ([((7 : Int).emod 256).toNat] ++ encodeU128LE ((10 ^ 18 : Nat) : Int))))) ∧
    (encodeU128LE ((10 ^ 18 : Nat) : Int)).length = 16 :=
  claim_C1_payload_layout (List.replicate 40 'a') "A".data "B".data 7 "1".data
    (encodeU32LE 2 ++ List.replicate 20 170) (encodeU128LE ((10 ^ 18 : Nat) : Int))
    (by decide) (by decide)

/-- C3: after trimming, lowercasing and stripping an optional 0x prefix, a
40-hex-character owner encodes as tag 2 plus its 20 decoded bytes, a
64-hex-character owner as tag 1 plus its 32 decoded bytes, and any other
length fails. -/
theorem claim_C3_owner_tagging (owner : List Char) :
    ((ownerNormalized owner).length = 40 →
      (∀ c ∈ ownerNormalized owner, isHexDigitChar c = true) →
      encodeAccountOwner owner =
        .ok (encodeU32LE 2 ++ hexPairsDecode (ownerNormalized owner)) ∧
      (hexPairsDecode (ownerNormalized owner)).length = 20) ∧
    ((ownerNormalized owner).length = 64 →
      (∀ c ∈ ownerNormalized owner, isHexDigitChar c = true) →
      encodeAccountOwner owner =
        .ok (encodeU32LE 1 ++ hexPairsDecode (ownerNormalized owner)) ∧
      (hexPairsDecode (ownerNormalized owner)).length = 32) ∧
    ((ownerNormalized owner).length ≠ 40 → (ownerNormalized owner).length ≠ 64 →
      encodeAccountOwner owner = .error .unsupportedOwnerLength) := by
  refine ⟨?_, ?_, ?_⟩
  · intro h40 hhex
    have h := hexToBytes_allHex _ hhex (by omega)
    constructor
    · simp only [encodeAccountOwner]
      rw [if_pos h40, h.1]
      rfl
    · unfold hexPairsDecode
      rw [List.length_map, chunkPairs_length, h40]
  · intro h64 hhex
    have h := hexToBytes_allHex _ hhex (by omega)
    constructor
    · simp only [encodeAccountOwner]
      rw [if_neg (by omega), if_pos h64, h.1]
      rfl
    · unfold hexPairsDecode
      rw [List.length_map, chunkPairs_length, h64]
  · intro h40 h64
    simp only [encodeAccountOwner]
    rw [if_neg h40, if_neg h64]

/-- C3 witness: an uppercase 40-hex-character owner with a 0x prefix
encodes with tag 2 and 20 raw bytes. -/
theorem claim_C3_witness :
    encodeAccountOwner ("0x" ++ String.mk (List.replicate 40 'A')).data =
      .ok (encodeU32LE 2 ++
        hexPairsDecode (ownerNormalized ("0x" ++ String.mk (List.replicate 40 'A')).data)) ∧
    (hexPairsDecode (ownerNormalized ("0x" ++ String.mk (List.replicate 40 'A')).data)).length
      = 20 :=
  (claim_C3_owner_tagging ("0x" ++ String.mk (List.replicate 40 'A')).data).1
    (by decide) (by decide)

/-- C4: the signature-envelope encoder succeeds exactly when the signature
hex decodes to 65 bytes and the (normalised) address hex decodes to 20
bytes, and then produces tag 2 followed by the 65 signature bytes and the
20 address bytes — 89 bytes in total. -/
theorem claim_C4_signature_envelope (sig addr : List Char) :
    ((∃ out, encodeEvmAccountSignature sig addr = .ok out) ↔
      ((∃ l, hexToBytes sig = .ok l ∧ l.length = 65) ∧
       (∃ m, hexToBytes (addressNormalized addr) = .ok m ∧ m.length = 20))) ∧
    (∀ l m, hexToBytes sig = .ok l → l.length = 65 →
      hexToBytes (addressNormalized addr) = .ok m → m.length = 20 →
      encodeEvmAccountSignature sig addr = .ok (encodeU32LE 2 ++ (l ++ m)) ∧
      (encodeU32LE 2 ++ (l ++ m)).length = 89) := by
  constructor
  · constructor
    · rintro ⟨out, hout⟩
      cases hsig : hexToBytes sig with
      | error e =>
        simp only [encodeEvmAccountSignature, hsig] at hout
        cases hout
      | ok l =>
        simp only [encodeEvmAccountSignature, hsig] at hout
        by_cases hl : l.length ≠ 65
        · rw [if_pos hl] at hout
          cases hout
        · rw [if_neg hl] at hout
          push_neg at hl
          cases haddr : hexToBytes (addressNormalized addr) with
          | error e =>
            rw [haddr] at hout
            cases hout
          | ok m =>
            rw [haddr] at hout
            simp only [] at hout
            by_cases hm : m.length ≠ 20
            · rw [if_pos hm] at hout
              cases hout
            · push_neg at hm
              exact ⟨⟨l, rfl, hl⟩, ⟨m, rfl, hm⟩⟩
    · rintro ⟨⟨l, hl, hl65⟩, ⟨m, hm, hm20⟩⟩
      refine ⟨encodeU32LE 2 ++ l ++ m, ?_⟩
      simp only [encodeEvmAccountSignature, hl, hm]
      rw [if_neg (by omega), if_neg (by omega)]
  · intro l m hl h65 hm h20
    constructor
    · simp only [encodeEvmAccountSignature, hl, hm]
      rw [if_neg (by omega), if_neg (by omega)]
      rw [List.append_assoc]
    · simp only [List.length_append, h65, h20, encodeU32LE, List.length_cons, List.length_nil]

set_option maxRecDepth 10000 in
/-- C4 witness: a 65-byte signature (130 hex characters) with a 20-byte
address (40 hex characters) encodes to the 89-byte envelope with tag 2. -/
theorem claim_C4_witness :
    encodeEvmAccountSignature (List.replicate 130 'a') (List.replicate 40 'b') =
      .ok (encodeU32LE 2 ++ (List.replicate 65 170 ++ List.replicate 20 187)) ∧
    (encodeU32LE 2 ++ (List.replicate 65 170 ++ List.replicate 20 187)).length = 89 :=
  (claim_C4_signature_envelope (List.replicate 130 'a') (List.replicate 40 'b')).2
    (List.replicate 65 170) (List.replicate 20 187)
    (by decide) (by decide) (by decide) (by decide)

/-- C6: evidence of the negative-amount slip — the minus check runs
before the plus is stripped, so "+-5" bypasses the NegativeAmount error,
parses to the negative BigInt −5·10¹⁸ and encodes its 128-bit
two's-complement bytes instead of failing. -/
theorem claim_C6_negative_amount_bug :
    parseAmountToU128 "+-5".data = .ok (-5000000000000000000) ∧
    encodeAmount "+-5".data =
      .ok [0, 0, 12, 187, 125, 110, 156, 186, 255, 255, 255, 255, 255, 255, 255, 255] := by
  constructor
  · decide
  · decide

/-- C7 (amended): hex decoding fails (with the invalid-length error)
exactly on odd length after stripping an optional 0x; on even length it
always succeeds — non-hex characters do not raise an error, each
two-character group being parsed leniently — and yields one byte per two
characters. -/
theorem claim_C7_hex_lenient (hex : List Char) :
    (hexToBytes hex = .error EncodeErr.invalidHexLength ↔
      (strip0xCI hex).length % 2 = 1) ∧
    ((strip0xCI hex).length % 2 = 0 →
      ∃ bytes, hexToBytes hex = .ok bytes ∧
        bytes.length = (strip0xCI hex).length / 2) :=
  hexToBytes_shape hex

/-- C7 counterexample: the string "zz" contains no hexadecimal digit yet
decodes without error to the single byte 0 (NaN stored into a byte slot),
contradicting the claim that malformed hex never silently decodes. -/
theorem claim_C7_counterexample : hexToBytes "zz".data = .ok [0] := by decide

/-- C7 witness: the amended statement applied to "0x1234". -/
theorem claim_C7_witness :
    (strip0xCI "0x1234".data).length % 2 = 0 ∧
    ∃ bytes, hexToBytes "0x1234".data = .ok bytes ∧
      bytes.length = (strip0xCI "0x1234".data).length / 2 :=
  ⟨by decide, (claim_C7_hex_lenient "0x1234".data).2 (by decide)⟩

/-- C9: the metadata encoder writes exactly one byte for decimals, equal
to the value reduced modulo 256, never raising an error; 256 encodes as
byte 0 and 300 as byte 44. -/
theorem claim_C9_decimals_truncation :
    (∀ (name symbol : List Char) (d : Int),
      encodeTokenMetadata name symbol d =
        encodeString name ++ encodeString symbol ++ [(d.emod 256).toNat] ∧
      (d.emod 256).toNat < 256) ∧
    (encodeTokenMetadata [] [] 256).getLast? = some 0 ∧
    (encodeTokenMetadata [] [] 300).getLast? = some 44 := by
  refine ⟨fun name symbol d => ⟨rfl, ?_⟩, by decide, by decide⟩
  simp only [int_emod_eq_mod]
  omega

/-! ## C2: the domain-separated signing message -/

theorem hexDigitChar_class (d : Nat) (h : d < 16) :
    isDigitChar (hexDigitChar d) = true ∨
    (97 ≤ (hexDigitChar d).toNat ∧ (hexDigitChar d).toNat ≤ 102) := by
  interval_cases d <;> decide

theorem renderHexNat_byte (b : Nat) (hb : b < 256) :
    padLeftTo 2 '0' (renderHexNat b) = lowerHexOfByte b := by
  by_cases h0 : b = 0
  · subst h0
    decide
  · by_cases h16 : b < 16
    · have hd : toDigitsLE 16 b = [b] := by
        rw [toDigitsLE_eq 16 (by omega), if_neg h0, Nat.mod_eq_of_lt h16,
          Nat.div_eq_of_lt h16, toDigitsLE_zero]
      unfold renderHexNat
      rw [if_neg h0, hd]
      unfold padLeftTo lowerHexOfByte
      rw [Nat.div_eq_of_lt h16, Nat.mod_eq_of_lt h16]
      rfl
    · have hb16 : b / 16 < 16 := by omega
      have hb16pos : b / 16 ≠ 0 := by omega
      have hd : toDigitsLE 16 b = [b % 16, b / 16] := by
        rw [toDigitsLE_eq 16 (by omega), if_neg h0]
        congr 1
        rw [toDigitsLE_eq 16 (by omega), if_neg hb16pos, Nat.mod_eq_of_lt hb16,
          Nat.div_eq_of_lt hb16, toDigitsLE_zero]
      unfold renderHexNat
      rw [if_neg h0, hd]
      unfold padLeftTo lowerHexOfByte
      rfl

theorem bytesToHex_lower (bytes : List Nat) (h : ∀ x ∈ bytes, x < 256) :
    bytesToHex bytes = lowerHexOfBytes bytes := by
  induction bytes with
  | nil => rfl
  | cons x xs ih =>
    unfold bytesToHex lowerHexOfBytes
    simp only [List.flatMap_cons]
    rw [renderHexNat_byte x (h x (List.mem_cons_self x xs))]
    have := ih (fun y hy => h y (List.mem_cons_of_mem x hy))
    unfold bytesToHex lowerHexOfBytes at this
    rw [this]

/-- C2: for every encodable payload, the bytes submitted to the 256-bit
hash are exactly the UTF-8 bytes of the literal "CreateTokenRequest::"
followed by the canonical payload bytes, and the message presented to the
external signer is "0x" followed by the digest's lowercase hex string. -/
theorem claim_C2_signing_message (keccak : List Nat → List Nat)
    (owner name symbol : List Char) (decimals : Int) (supply : List Char)
    (B : List Nat)
    (hB : encodeCreateTokenRequest owner name symbol decimals supply = .ok B)
    (hK : ∀ x ∈ keccak (createTokenSigningPreimage B), x < 256) :
    createTokenSigningPreimage B = utf8Bytes "CreateTokenRequest::".data ++ B ∧
    signWithMetaMaskMessage keccak B =
      '0' :: 'x' :: lowerHexOfBytes (keccak (createTokenSigningPreimage B)) ∧
    ∀ c ∈ bytesToHex (keccak (createTokenSigningPreimage B)),
      isDigitChar c = true ∨ (97 ≤ c.toNat ∧ c.toNat ≤ 102) := by
  refine ⟨?_, ?_, ?_⟩
  · unfold createTokenSigningPreimage
    rw [show CREATE_TOKEN_TYPE ++ "::".data = "CreateTokenRequest::".data from by decide]
  · unfold signWithMetaMaskMessage
    rw [bytesToHex_lower _ hK]
  · intro c hc
    rw [bytesToHex_lower _ hK] at hc
    unfold lowerHexOfBytes at hc
    rw [List.mem_flatMap] at hc
    obtain ⟨x, hx, hcx⟩ := hc
    have hx256 := hK x hx
    unfold lowerHexOfByte at hcx
    rcases List.mem_cons.mp hcx with h1 | h1
    · rw [h1]
      exact hexDigitChar_class (x / 16) (by omega)
    · rw [List.mem_singleton.mp h1]
      exact hexDigitChar_class (x % 16) (by omega)

/-- C2 witness: the signing-message law at a concrete request and a
concrete stand-in for the external 256-bit hash. -/
theorem claim_C2_witness :
    createTokenSigningPreimage
        (encodeU32LE 2 ++ List.replicate 20 170 ++
          encodeTokenMetadata "A".data "B".data 7 ++ encodeU128LE ((10 ^ 18 : Nat) : Int)) =
      utf8Bytes "CreateTokenRequest::".data ++
        (encodeU32LE 2 ++ List.replicate 20 170 ++
          encodeTokenMetadata "A".data "B".data 7 ++ encodeU128LE ((10 ^ 18 : Nat) : Int)) ∧
    signWithMetaMaskMessage (fun _ => [0, 26, 255])
        (encodeU32LE 2 ++ List.replicate 20 170 ++
          encodeTokenMetadata "A".data "B".data 7 ++ encodeU128LE ((10 ^ 18 : Nat) : Int)) =
      '0' :: 'x' :: lowerHexOfBytes [0, 26, 255] ∧
    ∀ c ∈ bytesToHex [0, 26, 255],
      isDigitChar c = true ∨ (97 ≤ c.toNat ∧ c.toNat ≤ 102) :=
  claim_C2_signing_message (fun _ => [0, 26, 255])
    (List.replicate 40 'a') "A".data "B".data 7 "1".data
    (encodeU32LE 2 ++ List.replicate 20 170 ++
      encodeTokenMetadata "A".data "B".data 7 ++ encodeU128LE ((10 ^ 18 : Nat) : Int))
    (by decide) (by decide)

/-- C5: for every non-negative decimal string with at most 18 fractional
digits consisting of digits and at most one decimal point, decoding the
unscaled integer produced by the amount encoder (write it in decimal,
left-pad to at least 19 digits, insert a point 18 digits from the end,
strip trailing zeros and a trailing point) yields the normalized form of
the original amount string. -/
theorem claim_C5_amount_roundtrip (s : List Char)
    (h : DecimalAmountString s)
    (hfrac : (((jsSplit '.' s).drop 1).headD []).length ≤ 18) :
    ∃ n : Nat, parseAmountToU128 s = .ok ((n : Nat) : Int) ∧
      encodeAmount s = .ok (encodeU128LE ((n : Nat) : Int)) ∧
      decodeAmount n = normalizedAmount s := by
  obtain ⟨hd, hc⟩ := h
  rcases decimalString_decomp s hd hc with ⟨hdig, hsplit⟩ | ⟨I, F, hsIF, hIdig, hFdig, hsplit⟩
  · by_cases hnil : s = []
    · refine ⟨0, ?_, ?_, ?_⟩
      · rw [hnil]; decide
      · rw [hnil]; decide
      · rw [hnil]; decide
    · refine ⟨valMSB s * 10 ^ 18, ?_, ?_, ?_⟩
      · exact parseAmountToU128_digits_only s hnil hdig
      · unfold encodeAmount
        rw [parseAmountToU128_digits_only s hnil hdig]
        rfl
      · have hdec := decodeAmount_split (valMSB s) 0 (by positivity)
        rw [Nat.add_zero] at hdec
        have hstrip : stripTrailingZeros (padLeftTo 18 '0' (renderCore 0)) = [] := by decide
        rw [hdec, if_pos hstrip]
        simp only [normalizedAmount, hsplit]
        have hip := dropZeros_renderNat s hdig
        simp only [List.headD_cons, List.drop_succ_cons, List.drop_nil, List.headD_nil]
        rw [show stripTrailingZeros [] = [] from rfl, if_pos rfl, hip]
  · have hsegs1 : ((jsSplit '.' s).drop 1).headD [] = F := by rw [hsplit]; rfl
    have hFlen : F.length ≤ 18 := hsegs1 ▸ hfrac
    set Fpad := F ++ List.replicate (18 - F.length) '0' with hFpad
    have hFpadDig : ∀ c ∈ Fpad, isDigitChar c = true := by
      intro c hcm
      rw [hFpad] at hcm
      rcases List.mem_append.mp hcm with h1 | h1
      · exact hFdig c h1
      · rw [List.eq_of_mem_replicate h1]
        exact zeroChar_isDigit
    have hFpadLen : Fpad.length = 18 := by
      rw [hFpad]
      simp only [List.length_append, List.length_replicate]
      omega
    have hr : valMSB Fpad < 10 ^ 18 := by
      have := valMSB_lt Fpad hFpadDig
      rw [hFpadLen] at this
      exact this
    refine ⟨valMSB I * 10 ^ 18 + valMSB Fpad, ?_, ?_, ?_⟩
    · rw [hsIF]
      exact parseAmountToU128_digits_dot I F hIdig hFdig hFlen
    · unfold encodeAmount
      rw [hsIF, parseAmountToU128_digits_dot I F hIdig hFdig hFlen]
      rfl
    · have hdec := decodeAmount_split (valMSB I) (valMSB Fpad) hr
      have hK1 : padLeftTo 18 '0' (renderCore (valMSB Fpad)) = Fpad := by
        have := padLeftTo_renderCore_valMSB Fpad hFpadDig
        rw [hFpadLen] at this
        exact this
      rw [hK1] at hdec
      have hstripF : stripTrailingZeros Fpad = stripTrailingZeros F := by
        rw [hFpad]
        exact stripTrailingZeros_append_zeros F _
      rw [hstripF] at hdec
      rw [hdec]
      simp only [normalizedAmount, hsplit]
      have hip := dropZeros_renderNat I hIdig
      simp only [List.headD_cons, List.drop_succ_cons, List.drop_zero, List.drop_nil,
        List.headD_nil]
      rw [hip]

/-- C5 witness: the law applied at the concrete amount string "12.340",
whose normalized form is "12.34". -/
theorem claim_C5_witness :
    DecimalAmountString "12.340".data ∧
    (((jsSplit '.' "12.340".data).drop 1).headD []).length ≤ 18 ∧
    ∃ n : Nat, parseAmountToU128 "12.340".data = .ok ((n : Nat) : Int) ∧
      encodeAmount "12.340".data = .ok (encodeU128LE ((n : Nat) : Int)) ∧
      decodeAmount n = normalizedAmount "12.340".data :=
  ⟨by decide, by decide, claim_C5_amount_roundtrip "12.340".data (by decide) (by decide)⟩

/-- C8: encodeAmount of "0" and of the empty string are sixteen zero
bytes, and every pure digit string encodes the little-endian 128-bit form
of its value scaled by ten to the eighteenth. -/
theorem claim_C8_amount_scaling :
    encodeAmount "0".data = .ok (List.replicate 16 0) ∧
    encodeAmount "".data = .ok (List.replicate 16 0) ∧
    ∀ s : List Char, s ≠ [] → (∀ c ∈ s, isDigitChar c = true) →
      parseAmountToU128 s = .ok ((valMSB s * 10 ^ 18 : Nat) : Int) ∧
      encodeAmount s = .ok (encodeU128LE ((valMSB s * 10 ^ 18 : Nat) : Int)) := by
  refine ⟨by decide, by decide, ?_⟩
  intro s hne hdig
  refine ⟨parseAmountToU128_digits_only s hne hdig, ?_⟩
  unfold encodeAmount
  rw [parseAmountToU128_digits_only s hne hdig]
  rfl

/-- C8 witness: the supply "800000000" of the default form encodes the
unscaled integer 800000000 · 10¹⁸. -/
theorem claim_C8_witness :
    parseAmountToU128 "800000000".data = .ok ((800000000 * 10 ^ 18 : Nat) : Int) ∧
    encodeAmount "800000000".data = .ok (encodeU128LE ((800000000 * 10 ^ 18 : Nat) : Int)) := by
  have h := claim_C8_amount_scaling.2.2 "800000000".data (by decide) (by decide)
  have hval : valMSB "800000000".data = 800000000 := by decide
  rw [hval] at h
  exact h

end Launchpad
